import Mathlib

/-
Verification of the ufunc execution-planning and reduction engine
(numpy/core/src/umath/ufunc_object.c) against its specification.

Each section shallowly embeds the relevant C routines: pure loops become
Lean functions, the fallible entry points return Except, machine integers
become Int/Nat, and the opaque per-dtype kernels become an abstract binary
operation argument.
-/

set_option maxHeartbeats 1000000
set_option linter.unusedVariables false

namespace UFuncModel

/- ----------------------------------------------------------------------
Section 1: the inner reduce-style kernel loop shared by
PyUFunc_Accumulate and PyUFunc_Reduceat.

The selected innerloop for a binary reduction is called with
dataptr = (accumulator, input + offset, accumulator), strides
(0, elem_stride, 0) and a count; it folds the operation over
count consecutive input elements into the accumulator.
---------------------------------------------------------------------- -/

/-- Reduce-style innerloop call: fold `op` over `n` consecutive elements of
`arr` starting at index `pos`, with accumulator `acc` (output stride 0). -/
def innerFold {α : Type} (op : α → α → α) (arr : Nat → α) (acc : α) (pos : Nat) : Nat → α
  | 0 => acc
  | n + 1 => innerFold op arr (op acc (arr pos)) (pos + 1) n

/- ----------------------------------------------------------------------
Section 2: PyUFunc_Reduceat, one-dimensional case (the loop body is
identical in the outer-iterator and no-iterator branches; the indices
have been validated by the caller, so they are naturals below the
axis length).
---------------------------------------------------------------------- -/

/-- Result of a reduceat call: the output elements along the reduced axis
and the number of innerloop (kernel) invocations that were made. -/
structure ReduceatResult (α : Type) where
  out : List α
  kernelCalls : Nat

/-- Segment end for position `i` of reduceat: `ind[i+1]` for all but the
last position, the axis length for the last one. -/
def segmentEnd (len : Nat) (ind : List Nat) (i : Nat) : Nat :=
  if i = ind.length - 1 then len else ind.getD (i + 1) 0

/-- One iteration of the reduceat loop: copy `arr[ind[i]]` into the output
slot, then, only when the signed segment count exceeds one, run the
innerloop over the remaining `count - 1` elements of the segment. -/
def reduceatSegment {α : Type} (op : α → α → α) (arr : Nat → α) (len : Nat)
    (ind : List Nat) (i : Nat) : α :=
  let start := ind.getD i 0
  let stop := segmentEnd len ind i
  let count : Int := (stop : Int) - (start : Int)
  let first := arr start
  if 1 < count then innerFold op arr first (start + 1) (count - 1).toNat
  else first

/-- Shallow embedding of the PyUFunc_Reduceat execution loop over one axis:
for every position of the index array one output element is produced, and
the innerloop runs once per segment whose signed length exceeds one. -/
def reduceat1d {α : Type} (op : α → α → α) (arr : Nat → α) (len : Nat)
    (ind : List Nat) : ReduceatResult α :=
  { out := (List.range ind.length).map (reduceatSegment op arr len ind)
    kernelCalls :=
      ((List.range ind.length).filter (fun i =>
        decide (1 < (segmentEnd len ind i : Int) - (ind.getD i 0 : Int)))).length }

/- ----------------------------------------------------------------------
Section 3: PyUFunc_Accumulate, one-dimensional case.  The first element
is copied (memmove / refcounted pointer copy), then a single innerloop
call of length count-1 computes out[k] = op(out[k-1], in[k]).
---------------------------------------------------------------------- -/

/-- Result of an accumulate call: output elements and kernel invocations. -/
structure AccumResult (α : Type) where
  out : List α
  kernelCalls : Nat

/-- Tail of the accumulate innerloop: with accumulator `acc` (the previous
output element) produce the next `n` output elements starting at input
position `pos`. -/
def accumTail {α : Type} (op : α → α → α) (arr : Nat → α) (acc : α) (pos : Nat) : Nat → List α
  | 0 => []
  | n + 1 =>
    let v := op acc (arr pos)
    v :: accumTail op arr v (pos + 1) n

/-- Shallow embedding of the PyUFunc_Accumulate loop over one axis of
length `len`.  A zero-length axis returns the zero-size output before the
loop is entered; otherwise the first element is copied and, when more than
one element is present, a single innerloop call handles the rest. -/
def accumulate1d {α : Type} (op : α → α → α) (arr : Nat → α) (len : Nat) : AccumResult α :=
  if len = 0 then { out := [], kernelCalls := 0 }
  else
    { out := arr 0 :: accumTail op arr (arr 0) 1 (len - 1)
      kernelCalls := if 1 < len then 1 else 0 }

/- ----------------------------------------------------------------------
Section 4: the NPY_OBJECT first-element copy of PyUFunc_Accumulate and
PyUFunc_Reduceat.  Objects are modelled as identifiers with a reference
count; memory slots hold object identifiers.  The code performs
Py_XINCREF(*src) then Py_XDECREF(*dst) and then the pointer assignment,
in that order.
---------------------------------------------------------------------- -/

/-- Reference-counted heap model: each slot address holds an object
identifier, and each object identifier has a reference count. -/
structure ObjState where
  mem : Nat → Nat
  rc : Nat → Int

/-- Py_XINCREF on object `o`. -/
def increfObj (s : ObjState) (o : Nat) : ObjState :=
  { s with rc := fun x => if x = o then s.rc x + 1 else s.rc x }

/-- Py_XDECREF on object `o`. -/
def decrefObj (s : ObjState) (o : Nat) : ObjState :=
  { s with rc := fun x => if x = o then s.rc x - 1 else s.rc x }

/-- Slot write. -/
def writeSlot (s : ObjState) (dst v : Nat) : ObjState :=
  { s with mem := fun x => if x = dst then v else s.mem x }

/-- First-element copy for `otype == NPY_OBJECT`: incref the source object
first, then decref the object previously held by the destination, then
store the source object in the destination slot.  Also returns the trace
of the source object reference count after each step, to reason about
temporary death of the object. -/
def objFirstCopy (s : ObjState) (dst src : Nat) : ObjState × List Int :=
  let o := s.mem src
  let old := s.mem dst
  let s1 := increfObj s o
  let s2 := decrefObj s1 old
  let s3 := writeSlot s2 dst (s2.mem src)
  (s3, [s.rc o, s1.rc o, s2.rc o])

/- ----------------------------------------------------------------------
Theorems for claims C1 and C2.
---------------------------------------------------------------------- -/

/-- Claim C1: for a reduceat call whose indices are all in range, the
output length along the reduced axis equals the number of indices, and
every position whose following index is not larger than it receives a pure
copy of the input element at its index, with no reduction applied (the
result does not depend on the kernel operation at all). -/
theorem reduceat_degenerate_segment_is_copy {α : Type} (op : α → α → α)
    (arr : Nat → α) (len : Nat) (ind : List Nat)
    (hvalid : ∀ x ∈ ind, x < len) :
    (reduceat1d op arr len ind).out.length = ind.length ∧
    ∀ i, i + 1 < ind.length → ind.getD (i + 1) 0 ≤ ind.getD i 0 →
      (reduceat1d op arr len ind).out.getD i (arr 0) = arr (ind.getD i 0) := by
  constructor
  · simp [reduceat1d]
  · intro i hi hle
    have hlt : i < ind.length := Nat.lt_of_succ_lt hi
    have hne : i ≠ ind.length - 1 := by omega
    have hget : (reduceat1d op arr len ind).out.getD i (arr 0)
        = reduceatSegment op arr len ind i := by
      simp [reduceat1d, List.getD_eq_getElem?_getD, List.getElem?_map,
        List.getElem?_range hlt]
    rw [hget]
    have hcount : ¬ (1 : Int) < (segmentEnd len ind i : Int) - (ind.getD i 0 : Int) := by
      have hstop : segmentEnd len ind i = ind.getD (i + 1) 0 := by
        simp [segmentEnd, hne]
      rw [hstop]
      have : (ind.getD (i + 1) 0 : Int) ≤ (ind.getD i 0 : Int) := by
        exact_mod_cast hle
      omega
    simp only [reduceatSegment]
    rw [if_neg hcount]

/-- Witness for C1 at a concrete input: array of length 5, indices [3, 1]
with ind[1] = 1 not larger than ind[0] = 3, so output slot 0 is a pure copy
of element 3. -/
theorem reduceat_degenerate_segment_is_copy_witness :
    (∀ x ∈ [3, 1], x < 5) ∧
    ((reduceat1d Nat.add (fun k => k) 5 [3, 1]).out.length = [3, 1].length ∧
    ∀ i, i + 1 < [3, 1].length →
      [3, 1].getD (i + 1) 0 ≤ [3, 1].getD i 0 →
      (reduceat1d Nat.add (fun k => k) 5 [3, 1]).out.getD i ((fun k => k) 0)
        = (fun k => k) ([3, 1].getD i 0)) :=
  ⟨by decide,
   reduceat_degenerate_segment_is_copy Nat.add (fun k => k) 5 [3, 1] (by decide)⟩

/-- Claim C2: for a non-empty reduction axis, accumulate sets output
element 0 by copying input element 0 (the value does not pass through the
kernel: the head is the input head for every kernel operation), and the
NPY_OBJECT copy acquires the new reference before releasing the old one,
so that an in-place copy of a slot onto itself never lets the reference
count of a live object touch zero and leaves both value and count intact. -/
theorem accumulate_first_element_copied {α : Type} (op : α → α → α)
    (arr : Nat → α) (len : Nat) (s : ObjState) (p : Nat)
    (hlen : 0 < len) (hrc : 1 ≤ s.rc (s.mem p)) :
    (accumulate1d op arr len).out.getD 0 (arr 1) = arr 0 ∧
    (objFirstCopy s p p).1.mem p = s.mem p ∧
    (objFirstCopy s p p).1.rc (s.mem p) = s.rc (s.mem p) ∧
    ∀ v ∈ (objFirstCopy s p p).2, 1 ≤ v := by
  refine ⟨?_, ?_, ?_, ?_⟩
  · have : len ≠ 0 := Nat.pos_iff_ne_zero.mp hlen
    simp [accumulate1d, this]
  · simp [objFirstCopy, writeSlot, decrefObj, increfObj]
  · simp [objFirstCopy, writeSlot, decrefObj, increfObj]
  · intro v hv
    simp only [objFirstCopy, increfObj, decrefObj, List.mem_cons,
      List.mem_singleton, List.not_mem_nil] at hv
    rcases hv with h | h | h | h
    · omega
    · subst h; simp; omega
    · subst h; simp; omega
    · exact absurd h (by simp)

/-- Witness for C2 at a concrete input: length-3 axis, addition kernel,
and an aliased object slot with reference count 1. -/
theorem accumulate_first_element_copied_witness :
    (0 < 3 ∧ 1 ≤ (ObjState.mk (fun _ => 7) (fun _ => 1)).rc
        ((ObjState.mk (fun _ => 7) (fun _ => 1)).mem 0)) ∧
    ((accumulate1d Nat.add (fun k => k + 10) 3).out.getD 0 ((fun k => k + 10) 1)
        = (fun k => k + 10) 0 ∧
     (objFirstCopy (ObjState.mk (fun _ => 7) (fun _ => 1)) 0 0).1.mem 0
        = (ObjState.mk (fun _ => 7) (fun _ => 1)).mem 0 ∧
     (objFirstCopy (ObjState.mk (fun _ => 7) (fun _ => 1)) 0 0).1.rc
        ((ObjState.mk (fun _ => 7) (fun _ => 1)).mem 0)
        = (ObjState.mk (fun _ => 7) (fun _ => 1)).rc
            ((ObjState.mk (fun _ => 7) (fun _ => 1)).mem 0) ∧
     ∀ v ∈ (objFirstCopy (ObjState.mk (fun _ => 7) (fun _ => 1)) 0 0).2, 1 ≤ v) :=
  ⟨⟨by decide, by norm_num [ObjState.mk]⟩,
   accumulate_first_element_copied Nat.add (fun k => k + 10) 3
     (ObjState.mk (fun _ => 7) (fun _ => 1)) 0 (by decide) (by norm_num [ObjState.mk])⟩

/- ----------------------------------------------------------------------
Section 5: PyUFunc_GenericReduction entry checks, axis conversion and
operation dispatch (claims C5, C10), and the duplicate-axis check at the
top of PyUFunc_Reduce.
---------------------------------------------------------------------- -/

/-- Which of the three reduce-like operations was invoked. -/
inductive RedOp
  | reduce
  | accumulate
  | reduceat
  deriving DecidableEq, Repr

/-- Errors raised by the reduction entry points before any computation. -/
inductive RedError
  | coreSigNotAllowed
  | onlyBinary
  | onlySingleOutput
  | axisOutOfBounds
  | tooManyAxes
  | cannotAccumulateOnScalar
  | cannotReduceatOnScalar
  | accumulateMultipleAxes
  | reduceatMultipleAxes
  | duplicateAxis
  deriving DecidableEq, Repr

/-- The static shape of a ufunc as far as the reduction entry checks are
concerned: whether a nontrivial core signature is enabled, and the input
and output arities. -/
structure UfMeta where
  coreEnabled : Bool
  nin : Nat
  nout : Nat

/-- Entry checks of PyUFunc_GenericReduction: an enabled core signature,
an input arity other than two, or an output arity other than one abort
the call before any further work (the continuation `rest`). -/
def genericReductionEntry {β : Type} (u : UfMeta) (rest : Unit → Except RedError β) :
    Except RedError β :=
  if u.coreEnabled then .error .coreSigNotAllowed
  else if u.nin ≠ 2 then .error .onlyBinary
  else if u.nout ≠ 1 then .error .onlySingleOutput
  else rest ()

/-- Duplicate-axis scan at the top of PyUFunc_Reduce: the axis flags start
all clear, and a set flag encountered again is a duplicate-value error. -/
def buildAxisFlags : List Nat → List Bool → Except RedError (List Bool)
  | [], flags => .ok flags
  | a :: rest, flags =>
    if flags.getD a false then .error .duplicateAxis
    else buildAxisFlags rest (flags.set a true)

/-- PyUFunc_Reduce runs the duplicate-axis scan before identity lookup,
type resolution and iteration (the continuation `rest`). -/
def reduceEntry {β : Type} (ndim : Nat) (axes : List Nat) (rest : Unit → Except RedError β) :
    Except RedError β :=
  match buildAxisFlags axes (List.replicate ndim false) with
  | .error e => .error e
  | .ok _ => rest ()

/-- The axis argument of a reduce-like call as seen after argument
parsing: absent, Py_None, a tuple of integers, or a single integer. -/
inductive AxisArg
  | absent
  | pyNone
  | tup (l : List Int)
  | int (a : Int)

/-- NPY_MAXDIMS. -/
def NPY_MAXDIMS : Nat := 32

/-- check_and_adjust_axis: an axis in [-ndim, ndim) is normalized by
adding ndim when negative; anything else is an axis-out-of-bounds error. -/
def checkAndAdjustAxis (axis : Int) (ndim : Nat) : Except RedError Nat :=
  if axis < -(ndim : Int) ∨ (ndim : Int) ≤ axis then .error .axisOutOfBounds
  else if axis < 0 then .ok (axis + ndim).toNat
  else .ok axis.toNat

/-- Elementwise conversion of a tuple axis argument, mirroring the for
loop over the tuple items. -/
def convertAxisList : List Int → Nat → Except RedError (List Nat)
  | [], _ => .ok []
  | x :: rest, ndim =>
    match checkAndAdjustAxis x ndim with
    | .error e => .error e
    | .ok v =>
      match convertAxisList rest ndim with
      | .error e => .error e
      | .ok vs => .ok (v :: vs)

/-- Conversion of the axis argument into the list of reduction axes
(PyUFunc_GenericReduction): the default is axis 0 (no axes for a rank-0
input), Py_None means all axes, a tuple is bounds-checked element by
element, and a single integer is special-cased for rank-0 inputs when it
is 0 or -1. -/
def convertAxes (ndim : Nat) (a : AxisArg) : Except RedError (List Nat) :=
  match a with
  | .absent => if ndim = 0 then .ok [] else .ok [0]
  | .pyNone => .ok (List.range ndim)
  | .tup l =>
    if NPY_MAXDIMS < l.length then .error .tooManyAxes
    else convertAxisList l ndim
  | .int a =>
    if ndim = 0 ∧ (a = 0 ∨ a = -1) then .ok []
    else (checkAndAdjustAxis a ndim).map (fun x => [x])

/-- Axis handling of PyUFunc_GenericReduction followed by the per-operation
scalar and axis-count checks that guard the dispatch to PyUFunc_Reduce,
PyUFunc_Accumulate and PyUFunc_Reduceat. -/
def genericReductionAxes (oper : RedOp) (ndim : Nat) (a : AxisArg) :
    Except RedError (List Nat) :=
  match convertAxes ndim a with
  | .error e => .error e
  | .ok axes =>
    match oper with
    | .reduce => .ok axes
    | .accumulate =>
      if ndim = 0 then .error .cannotAccumulateOnScalar
      else if axes.length ≠ 1 then .error .accumulateMultipleAxes
      else .ok axes
    | .reduceat =>
      if ndim = 0 then .error .cannotReduceatOnScalar
      else if axes.length ≠ 1 then .error .reduceatMultipleAxes
      else .ok axes

/- ----------------------------------------------------------------------
Section 6: eager index validation of PyUFunc_Reduceat (claim C6).
---------------------------------------------------------------------- -/

/-- The IndexError raised by reduceat index validation: the offending
index value and the axis length bounding the valid range [0, len). -/
structure IdxError where
  index : Int
  axisLen : Int
  deriving DecidableEq, Repr

/-- Index validation loop of PyUFunc_Reduceat: scan the raw indices in
order and fail on the first one outside [0, axisLen). -/
def reduceatCheckIndices : List Int → Int → Except IdxError Unit
  | [], _ => .ok ()
  | x :: rest, axisLen =>
    if x < 0 ∨ axisLen ≤ x then .error ⟨x, axisLen⟩
    else reduceatCheckIndices rest axisLen

/-- PyUFunc_Reduceat validates every index before the buffer-size lookup,
loop selection, output allocation and execution (the continuation). -/
def reduceatEntry {β : Type} (ind : List Int) (axisLen : Int)
    (rest : Unit → Except IdxError β) : Except IdxError β :=
  match reduceatCheckIndices ind axisLen with
  | .error e => .error e
  | .ok _ => rest ()

/- ----------------------------------------------------------------------
Proofs for claims C5, C6, C10.
---------------------------------------------------------------------- -/

theorem buildAxisFlags_error_eq {axes : List Nat} {flags : List Bool} {e : RedError}
    (h : buildAxisFlags axes flags = .error e) : e = .duplicateAxis := by
  induction axes generalizing flags with
  | nil => simp [buildAxisFlags] at h
  | cons a rest ih =>
    simp only [buildAxisFlags] at h
    by_cases ha : flags.getD a false
    · rw [if_pos ha] at h
      injection h with h2
      exact h2.symm
    · rw [if_neg ha] at h
      exact ih h

theorem buildAxisFlags_ok_flags_false {axes : List Nat} {flags : List Bool} {r : List Bool}
    (h : buildAxisFlags axes flags = .ok r) :
    ∀ x ∈ axes, x < flags.length → flags.getD x false = false := by
  induction axes generalizing flags with
  | nil => intro x hx; simp at hx
  | cons a rest ih =>
    intro x hx hxlt
    simp only [buildAxisFlags] at h
    by_cases ha : flags.getD a false
    · rw [if_pos ha] at h
      exact absurd h (by simp)
    · rw [if_neg ha] at h
      rcases List.mem_cons.mp hx with hxa | hxr
      · subst hxa; simpa using ha
      · by_cases hxa2 : x = a
        · subst hxa2; simpa using ha
        · have hlen : x < (flags.set a true).length := by simpa using hxlt
          have := ih h x hxr hlen
          rw [List.getD_eq_getElem?_getD, List.getElem?_set_ne (fun hh => hxa2 hh.symm)] at this
          rw [List.getD_eq_getElem?_getD]
          exact this

theorem buildAxisFlags_ok_nodup {axes : List Nat} {flags : List Bool} {r : List Bool}
    (h : buildAxisFlags axes flags = .ok r)
    (hb : ∀ x ∈ axes, x < flags.length) : axes.Nodup := by
  induction axes generalizing flags with
  | nil => exact List.nodup_nil
  | cons a rest ih =>
    simp only [buildAxisFlags] at h
    by_cases ha : flags.getD a false
    · rw [if_pos ha] at h
      exact absurd h (by simp)
    · rw [if_neg ha] at h
      have hbrest : ∀ x ∈ rest, x < (flags.set a true).length := by
        intro x hx; simpa using hb x (List.mem_cons_of_mem a hx)
      refine List.nodup_cons.mpr ⟨?_, ih h hbrest⟩
      intro hmem
      have := buildAxisFlags_ok_flags_false h a hmem
        (by simpa using hb a (List.mem_cons_self a rest))
      rw [List.getD_eq_getElem?_getD,
        List.getElem?_set_eq_of_lt true (hb a (List.mem_cons_self a rest))] at this
      simp at this

/-- Claim C5: a reduce/accumulate/reduceat call is rejected, before any of
the later work runs, when the ufunc has an enabled core signature, or is
not binary with a single output; and a reduce whose axis list contains a
duplicate is rejected at the top of PyUFunc_Reduce with a duplicate-axis
error, again for every possible continuation. -/
theorem reduction_entry_rejections (u : UfMeta) (ndim : Nat) (axes : List Nat)
    (hbad : u.coreEnabled = true ∨ u.nin ≠ 2 ∨ u.nout ≠ 1)
    (hdup : ¬ axes.Nodup) (hb : ∀ a ∈ axes, a < ndim) :
    (∀ (β : Type) (rest : Unit → Except RedError β),
      ∃ e, genericReductionEntry u rest = .error e) ∧
    (∀ (β : Type) (rest : Unit → Except RedError β),
      reduceEntry ndim axes rest = .error .duplicateAxis) := by
  constructor
  · intro β rest
    unfold genericReductionEntry
    rcases hbad with h | h | h
    · exact ⟨.coreSigNotAllowed, by simp [h]⟩
    · by_cases hc : u.coreEnabled
      · exact ⟨.coreSigNotAllowed, by simp [hc]⟩
      · exact ⟨.onlyBinary, by simp [hc, h]⟩
    · by_cases hc : u.coreEnabled
      · exact ⟨.coreSigNotAllowed, by simp [hc]⟩
      · by_cases hn : u.nin = 2
        · exact ⟨.onlySingleOutput, by simp [hc, hn, h]⟩
        · exact ⟨.onlyBinary, by simp [hc, hn]⟩
  · intro β rest
    unfold reduceEntry
    have hb2 : ∀ a ∈ axes, a < (List.replicate ndim false).length := by
      intro a ha; simpa using hb a ha
    rcases hres : buildAxisFlags axes (List.replicate ndim false) with e | r
    · rw [buildAxisFlags_error_eq hres]
    · exact absurd (buildAxisFlags_ok_nodup hres hb2) hdup

/-- Witness for C5: a ufunc with a core signature, and axes [1, 1] with
ndim 3. -/
theorem reduction_entry_rejections_witness :
    ((UfMeta.mk true 2 1).coreEnabled = true ∨ (UfMeta.mk true 2 1).nin ≠ 2 ∨
        (UfMeta.mk true 2 1).nout ≠ 1) ∧
    (¬ ([1, 1] : List Nat).Nodup) ∧ (∀ a ∈ ([1, 1] : List Nat), a < 3) ∧
    ((∀ (β : Type) (rest : Unit → Except RedError β),
      ∃ e, genericReductionEntry (UfMeta.mk true 2 1) rest = .error e) ∧
    (∀ (β : Type) (rest : Unit → Except RedError β),
      reduceEntry 3 [1, 1] rest = .error .duplicateAxis)) :=
  ⟨Or.inl rfl, by decide, by decide,
   reduction_entry_rejections (UfMeta.mk true 2 1) 3 [1, 1] (Or.inl rfl)
     (by decide) (by decide)⟩

/-- Claim C6: reduceat validates every segment-boundary index eagerly: if
any index lies outside [0, axis_length) the call fails, for every possible
continuation (so before any output allocation or kernel call), and the
reported error carries the first offending index together with the valid
range; if all indices are in range the continuation runs unchanged. -/
theorem reduceat_indices_validated_eagerly (ind : List Int) (axisLen : Int) :
    (∀ b, ind.find? (fun x => decide (x < 0 ∨ axisLen ≤ x)) = some b →
      ∀ (β : Type) (rest : Unit → Except IdxError β),
        reduceatEntry ind axisLen rest = .error ⟨b, axisLen⟩) ∧
    ((∀ x ∈ ind, 0 ≤ x ∧ x < axisLen) →
      ∀ (β : Type) (rest : Unit → Except IdxError β),
        reduceatEntry ind axisLen rest = rest ()) := by
  constructor
  · intro b hfind β rest
    unfold reduceatEntry
    have : reduceatCheckIndices ind axisLen = .error ⟨b, axisLen⟩ := by
      induction ind with
      | nil => simp at hfind
      | cons x rest2 ih =>
        by_cases hx : x < 0 ∨ axisLen ≤ x
        · rw [List.find?_cons_of_pos _ (by simpa using hx)] at hfind
          injection hfind with hb2
          subst hb2
          simp only [reduceatCheckIndices]
          rw [if_pos hx]
        · rw [List.find?_cons_of_neg _ (by simpa using hx)] at hfind
          simp only [reduceatCheckIndices]
          rw [if_neg hx]
          exact ih hfind
    rw [this]
  · intro hall β rest
    unfold reduceatEntry
    have : reduceatCheckIndices ind axisLen = .ok () := by
      induction ind with
      | nil => rfl
      | cons x rest2 ih =>
        have hx := hall x (List.mem_cons_self x rest2)
        have hnot : ¬ (x < 0 ∨ axisLen ≤ x) := by omega
        simp only [reduceatCheckIndices]
        rw [if_neg hnot]
        exact ih (fun y hy => hall y (List.mem_cons_of_mem x hy))
    rw [this]

/-- Witness for C6: indices [2, 7, 1] against axis length 5 fail on the
first out-of-range index 7; indices [2, 1] succeed. -/
theorem reduceat_indices_validated_eagerly_witness :
    (([2, 7, 1] : List Int).find? (fun x => decide (x < 0 ∨ (5 : Int) ≤ x)) = some 7) ∧
    (∀ (β : Type) (rest : Unit → Except IdxError β),
      reduceatEntry [2, 7, 1] 5 rest = .error ⟨7, 5⟩) :=
  ⟨by decide,
   (reduceat_indices_validated_eagerly [2, 7, 1] 5).1 7 (by decide)⟩

theorem convertAxes_scalar_never_ok (a : AxisArg) :
    ∀ axes, convertAxes 0 a = .ok axes → axes = [] := by
  intro axes h
  cases a with
  | absent => simpa [convertAxes] using h.symm
  | pyNone => simpa [convertAxes] using h.symm
  | tup l =>
    simp only [convertAxes] at h
    by_cases hl : NPY_MAXDIMS < l.length
    · rw [if_pos hl] at h
      exact absurd h (by simp)
    · rw [if_neg hl] at h
      cases l with
      | nil =>
        simp only [convertAxisList] at h
        injection h with h2
        exact h2.symm
      | cons x rest =>
        exfalso
        have hx : checkAndAdjustAxis x 0 = .error .axisOutOfBounds := by
          unfold checkAndAdjustAxis
          have hcond : x < -((0 : Nat) : Int) ∨ ((0 : Nat) : Int) ≤ x := by omega
          rw [if_pos hcond]
        simp only [convertAxisList, hx] at h
        exact absurd h (by simp)
  | int v =>
    simp only [convertAxes, true_and] at h
    by_cases hv : v = 0 ∨ v = -1
    · rw [if_pos hv] at h
      injection h with h2
      exact h2.symm
    · rw [if_neg hv] at h
      exfalso
      have hx : checkAndAdjustAxis v 0 = .error .axisOutOfBounds := by
        unfold checkAndAdjustAxis
        have hcond : v < -((0 : Nat) : Int) ∨ ((0 : Nat) : Int) ≤ v := by omega
        rw [if_pos hcond]
      rw [hx] at h
      exact absurd h (by simp [Except.map])

/-- Counterexample for claim C10 as stated: accumulate on a rank-0 input
with axis 1 fails with an axis-out-of-bounds error raised by axis
conversion, not with the cannot-accumulate-on-a-scalar error the claim
promises for every rank-0 accumulate call. -/
theorem scalar_accumulate_axis1_not_scalar_error :
    genericReductionAxes .accumulate 0 (.int 1) = .error .axisOutOfBounds ∧
    RedError.axisOutOfBounds ≠ RedError.cannotAccumulateOnScalar := by
  constructor
  · rfl
  · decide

/-- Claim C10 (amended): reduce on a rank-0 input accepts axis 0 and
axis -1 as a reduction over no axes, while accumulate and reduceat on a
rank-0 input never succeed: they fail with the scalar error whenever axis
conversion itself succeeds (axis omitted, None, an empty tuple, or the
special-cased integers 0 and -1), and with the axis conversion error
otherwise. -/
theorem scalar_reduction_dispatch (a : AxisArg) :
    genericReductionAxes .reduce 0 (.int 0) = .ok [] ∧
    genericReductionAxes .reduce 0 (.int (-1)) = .ok [] ∧
    (∀ axes, genericReductionAxes .accumulate 0 a ≠ .ok axes) ∧
    (∀ axes, genericReductionAxes .reduceat 0 a ≠ .ok axes) ∧
    (∀ axes, convertAxes 0 a = .ok axes →
      genericReductionAxes .accumulate 0 a = .error .cannotAccumulateOnScalar ∧
      genericReductionAxes .reduceat 0 a = .error .cannotReduceatOnScalar) := by
  refine ⟨rfl, rfl, ?_, ?_, ?_⟩
  · intro axes h
    unfold genericReductionAxes at h
    rcases hc : convertAxes 0 a with e | ax
    · rw [hc] at h; exact absurd h (by simp)
    · rw [hc] at h; exact absurd h (by simp)
  · intro axes h
    unfold genericReductionAxes at h
    rcases hc : convertAxes 0 a with e | ax
    · rw [hc] at h; exact absurd h (by simp)
    · rw [hc] at h; exact absurd h (by simp)
  · intro axes hc
    unfold genericReductionAxes
    rw [hc]
    exact ⟨rfl, rfl⟩

/-- Witness for C10 (amended) at the concrete axis argument Py_None. -/
theorem scalar_reduction_dispatch_witness :
    genericReductionAxes .reduce 0 (.int 0) = .ok [] ∧
    genericReductionAxes .accumulate 0 .pyNone = .error .cannotAccumulateOnScalar := by
  refine ⟨(scalar_reduction_dispatch .pyNone).1, ?_⟩
  exact ((scalar_reduction_dispatch .pyNone).2.2.2.2 [] (by rfl)).1

/- ----------------------------------------------------------------------
Section 7: output-dtype selection for reductions (claim C8),
PyUFunc_GenericReduction lines following axis conversion: out determines
otype when no dtype was requested, and add/multiply reductions over
boolean or narrow integer inputs are widened to the native long width.
The element sizes are those of an LP64 platform (sizeof(long) == 8).
---------------------------------------------------------------------- -/

/-- The numeric type numbers relevant to reduction dtype selection. -/
inductive TypeNum
  | NPY_BOOL
  | NPY_BYTE
  | NPY_UBYTE
  | NPY_SHORT
  | NPY_USHORT
  | NPY_INT
  | NPY_UINT
  | NPY_LONG
  | NPY_ULONG
  | NPY_LONGLONG
  | NPY_ULONGLONG
  | NPY_FLOAT
  | NPY_DOUBLE
  | NPY_OBJECT
  deriving DecidableEq, Repr

open TypeNum

/-- PyTypeNum_ISBOOL. -/
def isBoolType : TypeNum → Bool
  | NPY_BOOL => true
  | _ => false

/-- PyTypeNum_ISINTEGER. -/
def isIntegerType : TypeNum → Bool
  | NPY_BYTE | NPY_UBYTE | NPY_SHORT | NPY_USHORT | NPY_INT | NPY_UINT
  | NPY_LONG | NPY_ULONG | NPY_LONGLONG | NPY_ULONGLONG => true
  | _ => false

/-- PyTypeNum_ISUNSIGNED. -/
def isUnsignedType : TypeNum → Bool
  | NPY_UBYTE | NPY_USHORT | NPY_UINT | NPY_ULONG | NPY_ULONGLONG => true
  | _ => false

/-- Element size in bytes of each type on an LP64 platform. -/
def elsizeOf : TypeNum → Nat
  | NPY_BOOL => 1
  | NPY_BYTE => 1
  | NPY_UBYTE => 1
  | NPY_SHORT => 2
  | NPY_USHORT => 2
  | NPY_INT => 4
  | NPY_UINT => 4
  | NPY_LONG => 8
  | NPY_ULONG => 8
  | NPY_LONGLONG => 8
  | NPY_ULONGLONG => 8
  | NPY_FLOAT => 4
  | NPY_DOUBLE => 8
  | NPY_OBJECT => 8

/-- sizeof(long) on an LP64 platform. -/
def sizeofLong : Nat := 8

/-- Output dtype selection of PyUFunc_GenericReduction: an explicit dtype
request wins; otherwise a supplied output array determines the dtype;
otherwise, for the add and multiply ufuncs over boolean or integer
inputs, booleans widen to long and integers narrower than long widen to
long or unsigned long according to their signedness. -/
def reductionOtype (otype : Option TypeNum) (out : Option TypeNum)
    (mpType : TypeNum) (name : String) : TypeNum :=
  match otype with
  | some t => t
  | none =>
    match out with
    | some t => t
    | none =>
      if (isBoolType mpType || isIntegerType mpType)
          && (name = "add" || name = "multiply") then
        if isBoolType mpType then NPY_LONG
        else if elsizeOf mpType < sizeofLong then
          if isUnsignedType mpType then NPY_ULONG else NPY_LONG
        else mpType
      else mpType

/-- Claim C8: for a reduce/accumulate/reduceat of add or multiply with no
explicit dtype and no output array, a boolean input widens to the native
long, and an integer input narrower than the native long widens to long
or unsigned long matching its signedness. -/
theorem reduction_widens_narrow_integers (t : TypeNum) (name : String)
    (hname : name = "add" ∨ name = "multiply") :
    (isBoolType t = true → reductionOtype none none t name = NPY_LONG) ∧
    (isIntegerType t = true → isUnsignedType t = false → elsizeOf t < sizeofLong →
      reductionOtype none none t name = NPY_LONG) ∧
    (isIntegerType t = true → isUnsignedType t = true → elsizeOf t < sizeofLong →
      reductionOtype none none t name = NPY_ULONG) := by
  have hn : (name = "add" || name = "multiply") = true := by
    rcases hname with h | h <;> simp [h]
  cases t <;> simp [reductionOtype, hn, isBoolType, isIntegerType, isUnsignedType,
    elsizeOf, sizeofLong]

/-- Witness for C8: a signed 16-bit input of an add reduction widens to
the native long. -/
theorem reduction_widens_narrow_integers_witness :
    ("add" = "add" ∨ "add" = "multiply") ∧
    reductionOtype none none NPY_SHORT "add" = NPY_LONG :=
  ⟨Or.inl rfl,
   (reduction_widens_narrow_integers NPY_SHORT "add" (Or.inl rfl)).2.1
     (by decide) (by decide) (by decide)⟩

/- ----------------------------------------------------------------------
Section 8: try_trivial_single_output_loop (claims C7 and C3).  The
operand scan fixes the operation rank, shape and contiguity order and
collects one fixed stride per operand; acceptance ends in exactly one
innerloop invocation over the full element count, with no zero-size
check before it.
---------------------------------------------------------------------- -/

/-- The memory-order request passed down to the loop. -/
inductive NpyOrder
  | corder
  | fortranorder
  | keeporder
  | anyorder
  deriving DecidableEq, Repr

/-- An operand as seen by the trivial-loop check: its shape, strides,
element size, and the two contiguity flags. -/
structure TrivOp where
  shape : List Nat
  strides : List Int
  itemsize : Int
  flagC : Bool
  flagF : Bool
  deriving DecidableEq, Repr

/-- The contiguity bits of an operand, NPY_ARRAY_C_CONTIGUOUS being bit 1
and NPY_ARRAY_F_CONTIGUOUS bit 2. -/
def contigBits (op : TrivOp) : Nat :=
  (if op.flagC then 1 else 0) + (if op.flagF then 2 else 0)

/-- Scan state of try_trivial_single_output_loop: the operation order bits
(0 while unfixed), the operation rank (0 while unfixed), the operation
shape, and the fixed strides collected so far (none for the absent output
slot, to be filled at allocation time). -/
structure TrivScan where
  operationOrder : Nat
  operationNdim : Nat
  operationShape : List Nat
  fixedStrides : List (Option Int)
  deriving DecidableEq, Repr

/-- Stride and contiguity handling for one non-0-D operand whose rank and
shape have already been matched: 1-D operands contribute their stride,
higher-rank operands must be contiguous and agree with the operation
order, contributing their element size as stride. -/
def trivialScanStep (op : TrivOp) (st : TrivScan) : Option TrivScan :=
  if op.shape.length = 1 then
    some { st with fixedStrides := st.fixedStrides ++ [some (op.strides.getD 0 0)] }
  else if contigBits op = 0 then none
  else if st.operationOrder = 0 then
    some { st with operationOrder := contigBits op
                   fixedStrides := st.fixedStrides ++ [some op.itemsize] }
  else if st.operationOrder ≠ contigBits op then none
  else some { st with fixedStrides := st.fixedStrides ++ [some op.itemsize] }

/-- The operand scan loop of try_trivial_single_output_loop: the absent
output slot is skipped, 0-D operands broadcast with a zero stride, the
first non-0-D operand fixes rank and shape, and later operands must match
them exactly. -/
def trivialScanGo : List (Option TrivOp) → TrivScan → Option TrivScan
  | [], st => some st
  | none :: rest, st =>
    trivialScanGo rest { st with fixedStrides := st.fixedStrides ++ [none] }
  | some op :: rest, st =>
    if op.shape.length = 0 then
      trivialScanGo rest { st with fixedStrides := st.fixedStrides ++ [some 0] }
    else if st.operationNdim = 0 then
      match trivialScanStep op { st with operationNdim := op.shape.length
                                         operationShape := op.shape } with
      | none => none
      | some st2 => trivialScanGo rest st2
    else if op.shape.length ≠ st.operationNdim then none
    else if op.shape ≠ st.operationShape then none
    else
      match trivialScanStep op st with
      | none => none
      | some st2 => trivialScanGo rest st2

/-- The initial operation-order bits derived from an explicit order
request. -/
def initOrderBits : NpyOrder → Nat
  | .corder => 1
  | .fortranorder => 2
  | _ => 0

/-- Operand scan of try_trivial_single_output_loop over the full operand
vector (inputs followed by the single, possibly absent, output). -/
def trivialScan (order : NpyOrder) (ops : List (Option TrivOp)) : Option TrivScan :=
  trivialScanGo ops
    { operationOrder := initOrderBits order
      operationNdim := 0
      operationShape := []
      fixedStrides := [] }

/-- An accepted trivial loop: the innerloop is invoked exactly once, with
the total element count and the per-operand fixed strides. -/
structure TrivRun where
  count : Nat
  strides : List Int
  deriving DecidableEq, Repr

/-- Full model of try_trivial_single_output_loop: operand scan, then
output handling (allocation when absent, otherwise the input-output
overlap screening and the 1-D partial-self-overlap check), then the
single unconditional innerloop invocation with
count = PyArray_MultiplyList(operation_shape, operation_ndim).
The externally defined overlap macro is an abstract parameter. -/
def tryTrivialSingleOutputLoop (order : NpyOrder) (ins : List TrivOp)
    (out : Option TrivOp) (outElsize : Int)
    (overlapOK : TrivOp → TrivOp → Bool) : Option TrivRun :=
  match trivialScan order (ins.map some ++ [out]) with
  | none => none
  | some st =>
    match out with
    | none =>
      some { count := st.operationShape.prod
             strides := st.fixedStrides.map (fun s => s.getD outElsize) }
    | some o =>
      if ins.all (fun i => overlapOK i o) then
        if st.operationNdim = 1 ∧ o.strides.getD 0 0 < o.itemsize
            ∧ o.strides.getD 0 0 ≠ 0 then none
        else
          some { count := st.operationShape.prod
                 strides := st.fixedStrides.map (fun s => s.getD o.itemsize) }
      else none

/-- Number of innerloop invocations made by the trivial fast path: one
whenever it accepts, regardless of the element count. -/
def trivialKernelCalls : Option TrivRun → Nat
  | none => 0
  | some _ => 1

/-- Number of innerloop invocations made by iterator_loop: the loop is
skipped entirely when the full iteration size is zero; the nonzero case
is abstracted by the block count of the iteration plan. -/
def iteratorLoopKernelCalls (fullSize : Nat) (blocks : Nat) : Nat :=
  if fullSize = 0 then 0 else blocks

/- ----------------------------------------------------------------------
Proofs for claims C7 and C3.
---------------------------------------------------------------------- -/

theorem getD_append_left {α : Type} (l t : List α) (i : Nat) (d : α)
    (h : i < l.length) : (l ++ t).getD i d = l.getD i d := by
  rw [List.getD_eq_getElem?_getD, List.getElem?_append, if_pos h,
    ← List.getD_eq_getElem?_getD]

theorem getD_append_right {α : Type} (l t : List α) (i : Nat) (d : α) :
    (l ++ t).getD (l.length + i) d = t.getD i d := by
  rw [List.getD_eq_getElem?_getD, List.getElem?_append, if_neg (by omega),
    ← List.getD_eq_getElem?_getD]
  congr 2
  omega

theorem trivialScanStep_spec {op : TrivOp} {st st2 : TrivScan}
    (h : trivialScanStep op st = some st2) :
    st2.operationNdim = st.operationNdim ∧
    st2.operationShape = st.operationShape ∧
    (st.operationOrder ≠ 0 → st2.operationOrder = st.operationOrder) ∧
    (1 < op.shape.length → contigBits op ≠ 0 ∧ st2.operationOrder = contigBits op) ∧
    (∃ x, st2.fixedStrides = st.fixedStrides ++ [x]) := by
  unfold trivialScanStep at h
  by_cases h1 : op.shape.length = 1
  · rw [if_pos h1] at h
    injection h with h2
    subst h2
    exact ⟨rfl, rfl, fun _ => rfl, fun hgt => absurd h1 (by omega), ⟨_, rfl⟩⟩
  · rw [if_neg h1] at h
    by_cases h2 : contigBits op = 0
    · rw [if_pos h2] at h
      exact absurd h (by simp)
    · rw [if_neg h2] at h
      by_cases h3 : st.operationOrder = 0
      · rw [if_pos h3] at h
        injection h with h4
        subst h4
        exact ⟨rfl, rfl, fun hn => absurd h3 hn, fun _ => ⟨h2, rfl⟩, ⟨_, rfl⟩⟩
      · rw [if_neg h3] at h
        by_cases h4 : st.operationOrder ≠ contigBits op
        · rw [if_pos h4] at h
          exact absurd h (by simp)
        · rw [if_neg h4] at h
          injection h with h5
          subst h5
          exact ⟨rfl, rfl, fun _ => rfl, fun _ => ⟨h2, not_not.mp h4⟩, ⟨_, rfl⟩⟩

theorem trivialScanGo_spec {ops : List (Option TrivOp)} {st st2 : TrivScan}
    (h : trivialScanGo ops st = some st2) :
    (st.operationNdim ≠ 0 → st2.operationNdim = st.operationNdim ∧
        st2.operationShape = st.operationShape) ∧
    (st.operationOrder ≠ 0 → st2.operationOrder = st.operationOrder) ∧
    (∀ a, some a ∈ ops → a.shape ≠ [] → a.shape = st2.operationShape) ∧
    (∀ a, some a ∈ ops → 1 < a.shape.length →
        contigBits a ≠ 0 ∧ contigBits a = st2.operationOrder) ∧
    (∃ tail, st2.fixedStrides = st.fixedStrides ++ tail ∧
      (∀ i a, ops.getD i none = some a → a.shape = [] → tail.getD i none = some 0)) := by
  induction ops generalizing st with
  | nil =>
    simp only [trivialScanGo] at h
    injection h with h2
    subst h2
    refine ⟨fun _ => ⟨rfl, rfl⟩, fun _ => rfl, ?_, ?_, [], by simp, ?_⟩
    · intro a ha; simp at ha
    · intro a ha; simp at ha
    · intro i a ha; simp at ha
  | cons o rest ih =>
    cases o with
    | none =>
      simp only [trivialScanGo] at h
      obtain ⟨c1, c2, c3, c4, tail2, htail2, hpos2⟩ := ih h
      refine ⟨c1, c2, ?_, ?_, Option.none :: tail2, by simpa using htail2, ?_⟩
      · intro a ha hne
        rcases List.mem_cons.mp ha with hh | hh
        · exact absurd hh (by simp)
        · exact c3 a hh hne
      · intro a ha hgt
        rcases List.mem_cons.mp ha with hh | hh
        · exact absurd hh (by simp)
        · exact c4 a hh hgt
      · intro i a ha hsh
        cases i with
        | zero => simp at ha
        | succ j =>
          have : rest.getD j none = some a := by simpa using ha
          simpa using hpos2 j a this hsh
    | some op =>
      by_cases h0 : op.shape.length = 0
      · simp only [trivialScanGo] at h
        rw [if_pos h0] at h
        obtain ⟨c1, c2, c3, c4, tail2, htail2, hpos2⟩ := ih h
        refine ⟨c1, c2, ?_, ?_, some 0 :: tail2, by simpa using htail2, ?_⟩
        · intro a ha hne
          rcases List.mem_cons.mp ha with hh | hh
          · injection hh with hh2
            subst hh2
            exact absurd (List.length_eq_zero.mp h0) hne
          · exact c3 a hh hne
        · intro a ha hgt
          rcases List.mem_cons.mp ha with hh | hh
          · injection hh with hh2
            subst hh2
            omega
          · exact c4 a hh hgt
        · intro i a ha hsh
          cases i with
          | zero => simp
          | succ j =>
            have : rest.getD j none = some a := by simpa using ha
            simpa using hpos2 j a this hsh
      · by_cases hnd : st.operationNdim = 0
        · simp only [trivialScanGo] at h
          rw [if_neg h0, if_pos hnd] at h
          rcases hstep : trivialScanStep op
              { st with operationNdim := op.shape.length
                        operationShape := op.shape } with _ | st3
          · rw [hstep] at h; exact absurd h (by simp)
          · rw [hstep] at h
            obtain ⟨s1, s2, s3, s4, x, hx⟩ := trivialScanStep_spec hstep
            obtain ⟨c1, c2, c3, c4, tail2, htail2, hpos2⟩ := ih h
            have hnd3 : st3.operationNdim ≠ 0 := by
              rw [s1]; simpa using h0
            refine ⟨fun hn => absurd hnd hn, ?_, ?_, ?_, x :: tail2, ?_, ?_⟩
            · intro hord
              have := s3 hord
              rw [← this] at hord ⊢
              exact c2 hord
            · intro a ha hne
              rcases List.mem_cons.mp ha with hh | hh
              · injection hh with hh2
                subst hh2
                have := (c1 hnd3).2
                rw [this, s2]
              · exact c3 a hh hne
            · intro a ha hgt
              rcases List.mem_cons.mp ha with hh | hh
              · injection hh with hh2
                subst hh2
                obtain ⟨hc, hord3⟩ := s4 hgt
                refine ⟨hc, ?_⟩
                have : st3.operationOrder ≠ 0 := by rw [hord3]; exact hc
                rw [← hord3]
                exact (c2 this).symm
              · exact c4 a hh hgt
            · rw [htail2, hx]
              simp
            · intro i a ha hsh
              cases i with
              | zero =>
                simp only [List.getD_eq_getElem?_getD] at ha
                simp at ha
                rw [ha] at h0
                rw [hsh] at h0
                simp at h0
              | succ j =>
                have : rest.getD j none = some a := by simpa using ha
                simpa using hpos2 j a this hsh
        · simp only [trivialScanGo] at h
          rw [if_neg h0, if_neg hnd] at h
          by_cases hr : op.shape.length ≠ st.operationNdim
          · rw [if_pos hr] at h; exact absurd h (by simp)
          · rw [if_neg hr] at h
            by_cases hs : op.shape ≠ st.operationShape
            · rw [if_pos hs] at h; exact absurd h (by simp)
            · rw [if_neg hs] at h
              rcases hstep : trivialScanStep op st with _ | st3
              · rw [hstep] at h; exact absurd h (by simp)
              · rw [hstep] at h
                obtain ⟨s1, s2, s3, s4, x, hx⟩ := trivialScanStep_spec hstep
                obtain ⟨c1, c2, c3, c4, tail2, htail2, hpos2⟩ := ih h
                have hnd3 : st3.operationNdim ≠ 0 := by rw [s1]; exact hnd
                refine ⟨?_, ?_, ?_, ?_, x :: tail2, ?_, ?_⟩
                · intro _
                  obtain ⟨d1, d2⟩ := c1 hnd3
                  exact ⟨d1.trans s1, d2.trans s2⟩
                · intro hord
                  have := s3 hord
                  rw [← this] at hord ⊢
                  exact c2 hord
                · intro a ha hne
                  rcases List.mem_cons.mp ha with hh | hh
                  · injection hh with hh2
                    subst hh2
                    have := (c1 hnd3).2
                    rw [this, s2]
                    exact not_not.mp hs
                  · exact c3 a hh hne
                · intro a ha hgt
                  rcases List.mem_cons.mp ha with hh | hh
                  · injection hh with hh2
                    subst hh2
                    obtain ⟨hc, hord3⟩ := s4 hgt
                    refine ⟨hc, ?_⟩
                    have : st3.operationOrder ≠ 0 := by rw [hord3]; exact hc
                    rw [← hord3]
                    exact (c2 this).symm
                  · exact c4 a hh hgt
                · rw [htail2, hx]
                  simp
                · intro i a ha hsh
                  cases i with
                  | zero =>
                    simp only [List.getD_eq_getElem?_getD] at ha
                    simp at ha
                    rw [ha] at h0
                    rw [hsh] at h0
                    simp at h0
                  | succ j =>
                    have : rest.getD j none = some a := by simpa using ha
                    simpa using hpos2 j a this hsh

theorem contigBits_flagC {a : TrivOp} (h1 : contigBits a ≠ 0) (h2 : contigBits a ≠ 2) :
    a.flagC = true := by
  cases hc : a.flagC
  · cases hf : a.flagF
    · exact absurd (by simp [contigBits, hc, hf]) h1
    · exact absurd (by simp [contigBits, hc, hf]) h2
  · rfl

theorem contigBits_flagF {a : TrivOp} (h : contigBits a = 2) : a.flagF = true := by
  cases hf : a.flagF
  · exfalso
    cases hc : a.flagC <;> simp [contigBits, hc, hf] at h
  · rfl

/-- Claim C7: whenever the trivial-loop operand scan accepts an operand
set, all non-0-D operands share an identical rank and shape (each equals
the resolved operation shape), every operand of rank above one carries a
contiguity flag, all such operands agree on one contiguity order, an
explicit C or Fortran order request forces that order, and every 0-D
operand is broadcast with fixed stride zero. -/
theorem trivial_fastpath_acceptance_conditions (order : NpyOrder)
    (ops : List (Option TrivOp)) (st : TrivScan)
    (h : trivialScan order ops = some st) :
    (∀ a, some a ∈ ops → a.shape ≠ [] → a.shape = st.operationShape) ∧
    (∀ a b, some a ∈ ops → some b ∈ ops → a.shape ≠ [] → b.shape ≠ [] →
      a.shape.length = b.shape.length ∧ a.shape = b.shape) ∧
    (∀ a, some a ∈ ops → 1 < a.shape.length → (a.flagC = true ∨ a.flagF = true)) ∧
    ((∀ a, some a ∈ ops → 1 < a.shape.length → a.flagC = true) ∨
     (∀ a, some a ∈ ops → 1 < a.shape.length → a.flagF = true)) ∧
    (order = .corder → ∀ a, some a ∈ ops → 1 < a.shape.length → a.flagC = true) ∧
    (order = .fortranorder → ∀ a, some a ∈ ops → 1 < a.shape.length → a.flagF = true) ∧
    (∀ i a, ops.getD i none = some a → a.shape = [] →
      st.fixedStrides.getD i none = some 0) := by
  unfold trivialScan at h
  obtain ⟨c1, c2, c3, c4, tail, htail, hpos⟩ := trivialScanGo_spec h
  refine ⟨c3, ?_, ?_, ?_, ?_, ?_, ?_⟩
  · intro a b ha hb hane hbne
    have h1 := c3 a ha hane
    have h2 := c3 b hb hbne
    rw [h1, h2]
    exact ⟨rfl, rfl⟩
  · intro a ha hgt
    obtain ⟨hne, _⟩ := c4 a ha hgt
    by_cases hc : a.flagC
    · exact Or.inl hc
    · cases hf : a.flagF
      · exact absurd (by simp [contigBits, hc, hf]) hne
      · exact Or.inr rfl
  · by_cases hb2 : st.operationOrder = 2
    · refine Or.inr ?_
      intro a ha hgt
      obtain ⟨hne, heq⟩ := c4 a ha hgt
      exact contigBits_flagF (heq.trans hb2)
    · refine Or.inl ?_
      intro a ha hgt
      obtain ⟨hne, heq⟩ := c4 a ha hgt
      exact contigBits_flagC hne (fun hh => hb2 (heq.symm.trans hh))
  · intro hord a ha hgt
    subst hord
    have hinit : st.operationOrder = 1 := by
      have := c2 (by simp [initOrderBits])
      simpa [initOrderBits] using this
    obtain ⟨hne, heq⟩ := c4 a ha hgt
    exact contigBits_flagC hne (by rw [heq, hinit]; omega)
  · intro hord a ha hgt
    subst hord
    have hinit : st.operationOrder = 2 := by
      have := c2 (by simp [initOrderBits])
      simpa [initOrderBits] using this
    obtain ⟨hne, heq⟩ := c4 a ha hgt
    exact contigBits_flagF (heq.trans hinit)
  · intro i a ha hsh
    rw [htail]
    have := hpos i a ha hsh
    simpa using this

/-- Witness for C7 at a concrete accepted operand set: two C-contiguous
2-D inputs of shape [2, 3] and an absent output. -/
theorem trivial_fastpath_acceptance_conditions_witness :
    trivialScan NpyOrder.keeporder
      [some (TrivOp.mk [2, 3] [24, 8] 8 true false),
       some (TrivOp.mk [2, 3] [24, 8] 8 true false), none]
      = some (TrivScan.mk 1 2 [2, 3] [some 8, some 8, none]) ∧
    (∀ a, some a ∈ [some (TrivOp.mk [2, 3] [24, 8] 8 true false),
       some (TrivOp.mk [2, 3] [24, 8] 8 true false), none] → a.shape ≠ [] →
      a.shape = (TrivScan.mk 1 2 [2, 3] [some 8, some 8, none]).operationShape) :=
  ⟨by decide,
   (trivial_fastpath_acceptance_conditions NpyOrder.keeporder
     [some (TrivOp.mk [2, 3] [24, 8] 8 true false),
      some (TrivOp.mk [2, 3] [24, 8] 8 true false), none]
     (TrivScan.mk 1 2 [2, 3] [some 8, some 8, none]) (by decide)).1⟩

/-- Counterexample for claim C3 as stated: a zero-size 1-D operand set
accepted by the trivial fast path still invokes the kernel, exactly once,
with element count zero; the claim that every entry point returns without
invoking the kernel on zero-size operands is therefore false for the
plain-call fast path. -/
theorem trivial_fastpath_zero_size_still_invokes_kernel :
    trivialKernelCalls (tryTrivialSingleOutputLoop .keeporder
      [TrivOp.mk [0] [8] 8 true true] none 8 (fun _ _ => true)) = 1 ∧
    (TrivOp.mk [0] [8] 8 true true).shape.prod = 0 ∧
    tryTrivialSingleOutputLoop .keeporder [TrivOp.mk [0] [8] 8 true true] none 8
      (fun _ _ => true) = some (TrivRun.mk 0 [8, 8]) := by
  refine ⟨?_, by decide, ?_⟩ <;> rfl

/-- Claim C3 (amended): with a zero total iteration size the generic
iterator loop, accumulate and reduceat all return the correctly-shaped
zero-size output without a single kernel invocation; the trivial fast path
instead performs exactly one kernel invocation whose element count is the
total element count, hence zero elements when any operand extent is zero. -/
theorem zero_size_kernel_invocations :
    (∀ fullSize blocks, fullSize = 0 → iteratorLoopKernelCalls fullSize blocks = 0) ∧
    (∀ (α : Type) (op : α → α → α) (arr : Nat → α),
      (accumulate1d op arr 0).out = [] ∧ (accumulate1d op arr 0).kernelCalls = 0) ∧
    (∀ (α : Type) (op : α → α → α) (arr : Nat → α) (len : Nat),
      (reduceat1d op arr len []).out = [] ∧ (reduceat1d op arr len []).kernelCalls = 0) ∧
    (∀ (order : NpyOrder) (ins : List TrivOp) (outElsize : Int)
        (ov : TrivOp → TrivOp → Bool) (r : TrivRun),
      tryTrivialSingleOutputLoop order ins none outElsize ov = some r →
      trivialKernelCalls (some r) = 1 ∧
      ∀ a ∈ ins, 0 ∈ a.shape → r.count = 0) := by
  refine ⟨?_, ?_, ?_, ?_⟩
  · intro fullSize blocks hz
    simp [iteratorLoopKernelCalls, hz]
  · intro α op arr
    exact ⟨rfl, rfl⟩
  · intro α op arr len
    exact ⟨rfl, rfl⟩
  · intro order ins outElsize ov r h
    unfold tryTrivialSingleOutputLoop at h
    rcases hscan : trivialScan order (ins.map some ++ [none]) with _ | st
    · rw [hscan] at h; exact absurd h (by simp)
    · rw [hscan] at h
      simp only at h
      injection h with h2
      refine ⟨rfl, ?_⟩
      intro a ha hz
      unfold trivialScan at hscan
      obtain ⟨c1, c2, c3, c4, tail, htail, hpos⟩ := trivialScanGo_spec hscan
      have hmem : some a ∈ ins.map some ++ [(none : Option TrivOp)] := by
        rw [List.mem_append]
        exact Or.inl (List.mem_map_of_mem some ha)
      have hne : a.shape ≠ [] := by
        intro hh; rw [hh] at hz; simp at hz
      have hsh := c3 a hmem hne
      rw [← h2]
      simp only
      rw [← hsh]
      exact List.prod_eq_zero hz

/-- Witness for C3 (amended) at concrete inputs: a zero iteration size
skips the generic loop, and the concrete zero-size trivial run carries
count zero. -/
theorem zero_size_kernel_invocations_witness :
    (0 : Nat) = 0 ∧ iteratorLoopKernelCalls 0 7 = 0 :=
  ⟨rfl, (zero_size_kernel_invocations).1 0 7 rfl⟩

/- ----------------------------------------------------------------------
Section 9: _get_coredim_sizes (claim C4).  Each operand contributes, for
each of its declared core dimensions, a (shared dimension index, extent)
mention; a shared size still unresolved (-1) is set by the first mention
and every later mention must match it exactly.  Dimensions flagged
UFUNC_CORE_DIM_MISSING contribute extent 1 and shift the physical
dimension index through dim_delta.
---------------------------------------------------------------------- -/

/-- An operand together with its declared core dimensions: its full shape
and the list of shared core-dimension indices (ufunc core_dim_ixs slice). -/
structure CoreOp where
  shape : List Int
  ixs : List Nat
  deriving DecidableEq, Repr

/-- Errors raised by core-dimension validation: a size mismatch carrying
both sizes, or an output core dimension never specified. -/
inductive CdErr
  | mismatch (got expected : Int)
  | unspecified (opIndex dimIndex : Nat)
  deriving DecidableEq, Repr

/-- op_core_num_dims: declared core dimensions of the operand minus those
flagged missing. -/
def opCoreNumDims (missing : List Bool) (ixs : List Nat) : Nat :=
  (ixs.filter (fun ix => ! missing.getD ix false)).length

/-- The (index, extent) mentions of one operand: walking its core
dimension list; a missing dimension mentions extent 1 and bumps
dim_delta, otherwise the physical dimension core_start + idim - delta is
read. -/
def opMentionsGo (missing : List Bool) (shape : List Int) (coreStart : Nat) :
    List Nat → Nat → Nat → List (Nat × Int)
  | [], _, _ => []
  | ix :: rest, idim, delta =>
    if missing.getD ix false then
      (ix, 1) :: opMentionsGo missing shape coreStart rest (idim + 1) (delta + 1)
    else
      (ix, shape.getD (coreStart + idim - delta) 1) ::
        opMentionsGo missing shape coreStart rest (idim + 1) delta

/-- All core-dimension mentions of one operand, starting at
core_start_dim = ndim - op_core_num_dims. -/
def opMentions (missing : List Bool) (op : CoreOp) : List (Nat × Int) :=
  opMentionsGo missing op.shape (op.shape.length - opCoreNumDims missing op.ixs)
    op.ixs 0 0

/-- Mentions of a possibly absent operand: a NULL operand mentions
nothing. -/
def optMentions (missing : List Bool) : Option CoreOp → List (Nat × Int)
  | none => []
  | some op => opMentions missing op

/-- The per-mention check of _get_coredim_sizes: an unresolved shared size
(negative) is set by the mention; otherwise the mention must equal the
resolved size exactly or the call fails citing both sizes. -/
def coredimFold : List (Nat × Int) → List Int → Except CdErr (List Int)
  | [], sizes => .ok sizes
  | (ix, sz) :: rest, sizes =>
    if sizes.getD ix (-1) < 0 then coredimFold rest (sizes.set ix sz)
    else if sz ≠ sizes.getD ix (-1) then .error (.mismatch sz (sizes.getD ix (-1)))
    else coredimFold rest sizes

/-- The outer operand loop of _get_coredim_sizes; an absent operand (a
NULL output) contributes nothing. -/
def coredimOpsFold (missing : List Bool) :
    List (Option CoreOp) → List Int → Except CdErr (List Int)
  | [], sizes => .ok sizes
  | none :: rest, sizes => coredimOpsFold missing rest sizes
  | some op :: rest, sizes =>
    match coredimFold (opMentions missing op) sizes with
    | .error e => .error e
    | .ok sizes2 => coredimOpsFold missing rest sizes2

/-- Scan of one output operand for core dimensions never specified. -/
def checkUnspecifiedGo (sizes : List Int) (opIndex : Nat) :
    List Nat → Nat → Except CdErr Unit
  | [], _ => .ok ()
  | ix :: rest, idim =>
    if sizes.getD ix (-1) < 0 then .error (.unspecified opIndex idim)
    else checkUnspecifiedGo sizes opIndex rest (idim + 1)

/-- Final loop of _get_coredim_sizes over the output operands. -/
def checkUnspecified (sizes : List Int) :
    List (List Nat) → Nat → Except CdErr Unit
  | [], _ => .ok ()
  | ixs :: rest, opIndex =>
    match checkUnspecifiedGo sizes opIndex ixs 0 with
    | .error e => .error e
    | .ok _ => checkUnspecified sizes rest (opIndex + 1)

/-- _get_coredim_sizes: validate all operand mentions against the shared
size table (initialized to the frozen literals, -1 for inferred sizes),
then require every output core dimension resolved. -/
def getCoredimSizes (missing : List Bool) (ops : List (Option CoreOp))
    (outIxs : List (List Nat)) (sizes : List Int) : Except CdErr (List Int) :=
  match coredimOpsFold missing ops sizes with
  | .error e => .error e
  | .ok sizes2 =>
    match checkUnspecified sizes2 outIxs 0 with
    | .error e => .error e
    | .ok _ => .ok sizes2

/- ----------------------------------------------------------------------
Proofs for claim C4.
---------------------------------------------------------------------- -/

theorem coredimFold_length {ms : List (Nat × Int)} {sizes final : List Int}
    (h : coredimFold ms sizes = .ok final) : final.length = sizes.length := by
  induction ms generalizing sizes with
  | nil =>
    simp only [coredimFold] at h
    injection h with h2
    rw [h2]
  | cons p rest ih =>
    obtain ⟨ix, sz⟩ := p
    simp only [coredimFold] at h
    by_cases h1 : sizes.getD ix (-1) < 0
    · rw [if_pos h1] at h
      have := ih h
      simpa using this
    · rw [if_neg h1] at h
      by_cases h2 : sz ≠ sizes.getD ix (-1)
      · rw [if_pos h2] at h; exact absurd h (by simp)
      · rw [if_neg h2] at h
        exact ih h

theorem coredimFold_preserve {ms : List (Nat × Int)} {sizes final : List Int}
    (h : coredimFold ms sizes = .ok final) :
    ∀ ix, 0 ≤ sizes.getD ix (-1) → final.getD ix (-1) = sizes.getD ix (-1) := by
  induction ms generalizing sizes with
  | nil =>
    simp only [coredimFold] at h
    injection h with h2
    rw [h2]
    exact fun _ _ => rfl
  | cons p rest ih =>
    obtain ⟨jx, sz⟩ := p
    intro ix hix
    simp only [coredimFold] at h
    by_cases h1 : sizes.getD jx (-1) < 0
    · rw [if_pos h1] at h
      have hne : ix ≠ jx := by
        intro hh; rw [hh] at hix; omega
      have hset : (sizes.set jx sz).getD ix (-1) = sizes.getD ix (-1) := by
        rw [List.getD_eq_getElem?_getD, List.getElem?_set_ne (fun hh => hne hh.symm),
          ← List.getD_eq_getElem?_getD]
      have := ih h ix (by rw [hset]; exact hix)
      rw [this, hset]
    · rw [if_neg h1] at h
      by_cases h2 : sz ≠ sizes.getD jx (-1)
      · rw [if_pos h2] at h; exact absurd h (by simp)
      · rw [if_neg h2] at h
        exact ih h ix hix

theorem coredimFold_mentions {ms : List (Nat × Int)} {sizes final : List Int}
    (h : coredimFold ms sizes = .ok final)
    (hb : ∀ p ∈ ms, p.1 < sizes.length ∧ 0 ≤ p.2) :
    ∀ p ∈ ms, final.getD p.1 (-1) = p.2 := by
  induction ms generalizing sizes with
  | nil => intro p hp; simp at hp
  | cons q rest ih =>
    obtain ⟨jx, sz⟩ := q
    intro p hp
    obtain ⟨hjlt, hjnn⟩ := hb ⟨jx, sz⟩ (List.mem_cons_self _ _)
    simp only [coredimFold] at h
    by_cases h1 : sizes.getD jx (-1) < 0
    · rw [if_pos h1] at h
      have hbset : ∀ p ∈ rest, p.1 < (sizes.set jx sz).length ∧ 0 ≤ p.2 := by
        intro p2 hp2
        have := hb p2 (List.mem_cons_of_mem _ hp2)
        simpa using this
      rcases List.mem_cons.mp hp with hh | hh
      · subst hh
        show final.getD jx (-1) = sz
        have hset : (sizes.set jx sz).getD jx (-1) = sz := by
          rw [List.getD_eq_getElem?_getD, List.getElem?_set_eq_of_lt sz hjlt]
          rfl
        have := coredimFold_preserve h jx (by rw [hset]; exact hjnn)
        rw [this, hset]
      · exact ih h hbset p hh
    · rw [if_neg h1] at h
      by_cases h2 : sz ≠ sizes.getD jx (-1)
      · rw [if_pos h2] at h; exact absurd h (by simp)
      · rw [if_neg h2] at h
        rcases List.mem_cons.mp hp with hh | hh
        · subst hh
          show final.getD jx (-1) = sz
          have := coredimFold_preserve h jx (by omega)
          rw [this]
          exact (not_not.mp h2).symm
        · exact ih h (fun p2 hp2 => hb p2 (List.mem_cons_of_mem _ hp2)) p hh

theorem coredimOpsFold_length {missing : List Bool} {ops : List (Option CoreOp)}
    {sizes final : List Int} (h : coredimOpsFold missing ops sizes = .ok final) :
    final.length = sizes.length := by
  induction ops generalizing sizes with
  | nil =>
    simp only [coredimOpsFold] at h
    injection h with h2
    rw [h2]
  | cons o rest ih =>
    cases o with
    | none => exact ih h
    | some op =>
      simp only [coredimOpsFold] at h
      rcases hf : coredimFold (opMentions missing op) sizes with e | sizes2
      · rw [hf] at h; exact absurd h (by simp)
      · rw [hf] at h
        exact (ih h).trans (coredimFold_length hf)

theorem coredimOpsFold_preserve {missing : List Bool} {ops : List (Option CoreOp)}
    {sizes final : List Int} (h : coredimOpsFold missing ops sizes = .ok final) :
    ∀ ix, 0 ≤ sizes.getD ix (-1) → final.getD ix (-1) = sizes.getD ix (-1) := by
  induction ops generalizing sizes with
  | nil =>
    simp only [coredimOpsFold] at h
    injection h with h2
    rw [h2]
    exact fun _ _ => rfl
  | cons o rest ih =>
    cases o with
    | none => exact ih h
    | some op =>
      intro ix hix
      simp only [coredimOpsFold] at h
      rcases hf : coredimFold (opMentions missing op) sizes with e | sizes2
      · rw [hf] at h; exact absurd h (by simp)
      · rw [hf] at h
        have h1 := coredimFold_preserve hf ix hix
        have h2 := ih h ix (by rw [h1]; exact hix)
        rw [h2, h1]

theorem coredimOpsFold_mentions {missing : List Bool} {ops : List (Option CoreOp)}
    {sizes final : List Int} (h : coredimOpsFold missing ops sizes = .ok final)
    (hb : ∀ op, some op ∈ ops → ∀ p ∈ opMentions missing op,
      p.1 < sizes.length ∧ 0 ≤ p.2) :
    ∀ op, some op ∈ ops → ∀ p ∈ opMentions missing op, final.getD p.1 (-1) = p.2 := by
  induction ops generalizing sizes with
  | nil => intro op hop; simp at hop
  | cons o rest ih =>
    intro op hop p hp
    cases o with
    | none =>
      rcases List.mem_cons.mp hop with hh | hh
      · exact absurd hh (by simp)
      · exact ih h (fun op2 hop2 => hb op2 (List.mem_cons_of_mem _ hop2)) op hh p hp
    | some op1 =>
      simp only [coredimOpsFold] at h
      rcases hf : coredimFold (opMentions missing op1) sizes with e | sizes2
      · rw [hf] at h; exact absurd h (by simp)
      · rw [hf] at h
        have hblen : ∀ op2, some op2 ∈ rest → ∀ p2 ∈ opMentions missing op2,
            p2.1 < sizes2.length ∧ 0 ≤ p2.2 := by
          intro op2 hop2 p2 hp2
          have := hb op2 (List.mem_cons_of_mem _ hop2) p2 hp2
          rw [coredimFold_length hf]
          exact this
        rcases List.mem_cons.mp hop with hh | hh
        · injection hh with hh2
          subst hh2
          have h1 := coredimFold_mentions hf (hb op (List.mem_cons_self _ _)) p hp
          have h2 := coredimOpsFold_preserve h p.1 (by
            rw [h1]
            exact (hb op (List.mem_cons_self _ _) p hp).2)
          rw [h2, h1]
        · exact ih h hblen op hh p hp

/-- Claim C4: when core-dimension validation succeeds, every mention of a
shared core dimension by any operand equals the final resolved size (so
the first operand to mention an unresolved dimension fixes it and every
later mention matches exactly), sizes fixed as literals in the signature
never change, and on the concrete example of signature (i),(i) applied to
shapes (3,4) and (3,4) validation succeeds resolving i to 4, while shapes
(3,4) and (3,5) fail with a core-dimension mismatch citing sizes 5 and 4. -/
theorem coredim_first_mention_fixes_size (missing : List Bool)
    (ops : List (Option CoreOp)) (outIxs : List (List Nat))
    (sizes0 final : List Int)
    (hb : ∀ o ∈ ops, ∀ p ∈ optMentions missing o,
      p.1 < sizes0.length ∧ 0 ≤ p.2)
    (h : getCoredimSizes missing ops outIxs sizes0 = .ok final) :
    (∀ o ∈ ops, ∀ p ∈ optMentions missing o, final.getD p.1 (-1) = p.2) ∧
    (∀ ix, 0 ≤ sizes0.getD ix (-1) → final.getD ix (-1) = sizes0.getD ix (-1)) ∧
    getCoredimSizes [false]
      [some (CoreOp.mk [3, 4] [0]), some (CoreOp.mk [3, 4] [0]), none]
      [[]] [-1] = .ok [4] ∧
    getCoredimSizes [false]
      [some (CoreOp.mk [3, 4] [0]), some (CoreOp.mk [3, 5] [0]), none]
      [[]] [-1] = .error (.mismatch 5 4) := by
  have hops : coredimOpsFold missing ops sizes0 = .ok final := by
    unfold getCoredimSizes at h
    split at h
    · exact absurd h (by simp)
    · rename_i sizes2 hf
      split at h
      · exact absurd h (by simp)
      · injection h with h2
        rw [← h2]
        exact hf
  have hb2 : ∀ op, some op ∈ ops → ∀ p ∈ opMentions missing op,
      p.1 < sizes0.length ∧ 0 ≤ p.2 :=
    fun op hop => hb (some op) hop
  refine ⟨?_, coredimOpsFold_preserve hops, by rfl, by rfl⟩
  intro o ho p hp
  cases o with
  | none => simp [optMentions] at hp
  | some op => exact coredimOpsFold_mentions hops hb2 op ho p hp

/-- Witness for C4 at the concrete example operands of shapes (3,4) and
(3,4) with shared inferred core dimension i. -/
theorem coredim_first_mention_fixes_size_witness :
    (∀ o ∈ [some (CoreOp.mk [3, 4] [0]), some (CoreOp.mk [3, 4] [0]), none],
      ∀ p ∈ optMentions [false] o, p.1 < ([-1] : List Int).length ∧ 0 ≤ p.2) ∧
    (∀ o ∈ [some (CoreOp.mk [3, 4] [0]), some (CoreOp.mk [3, 4] [0]), none],
      ∀ p ∈ optMentions [false] o, ([4] : List Int).getD p.1 (-1) = p.2) :=
  ⟨by decide,
   (coredim_first_mention_fixes_size [false]
     [some (CoreOp.mk [3, 4] [0]), some (CoreOp.mk [3, 4] [0]), none]
     [[]] [-1] [4] (by decide) (by rfl)).1⟩

/- ----------------------------------------------------------------------
Section 10: _parse_signature (claim C9), a character-level embedding.
The recursion is driven by a fuel counter.  The C loop advances through
the string; the budgets below (2 units per remaining character plus
slack for the core-dimension chain, one unit per remaining character
plus slack for the argument chain) are large enough that the fuel is
never exhausted on any input: parseSignature_fuel_sufficient proves
that the fuel-exhaustion branch is unreachable, so the model fails
exactly where the C parser fails.  Positions are tracked exactly as the
C index i, and every error carries the position and the full signature
text, as the single PyErr_Format at the fail label does.
---------------------------------------------------------------------- -/

/-- Space or tab, as skipped between tokens. -/
def isSigSpace (c : Char) : Bool := c = ' ' || c = '\t'

/-- _is_alpha_underscore. -/
def isAlphaUnderscore (c : Char) : Bool :=
  (65 ≤ c.toNat && c.toNat ≤ 90) || (97 ≤ c.toNat && c.toNat ≤ 122) || c.toNat = 95

/-- ASCII digit. -/
def isDigitChar (c : Char) : Bool := 48 ≤ c.toNat && c.toNat ≤ 57

/-- _is_alnum_underscore. -/
def isAlnumUnderscore (c : Char) : Bool := isAlphaUnderscore c || isDigitChar c

/-- NPY_MAX_INTP on a 64-bit platform. -/
def NPY_MAX_INTP : Int := 2 ^ 63 - 1

/-- NPY_MIN_INTP on a 64-bit platform. -/
def NPY_MIN_INTP : Int := -(2 ^ 63)

/-- Value of a digit string. -/
def digitsVal (ds : List Char) : Int :=
  ds.foldl (fun a c => a * 10 + ((c.toNat : Int) - 48)) 0

/-- _get_size: strtoll (optional sign, digit run) followed by the checks
that the number is well formed (digits present, not followed by a name
character) and within the intp range; -1 signals a malformed number. -/
def getSizeNum (s : List Char) : Int :=
  let sign : Int := if s.head? = some '-' then -1 else 1
  let s1 := if s.head? = some '-' || s.head? = some '+' then s.drop 1 else s
  let digits := s1.takeWhile isDigitChar
  let after := s1.dropWhile isDigitChar
  if digits = [] then -1
  else if (after.head?.map isAlphaUnderscore).getD false then -1
  else if NPY_MAX_INTP ≤ sign * digitsVal digits ∨ sign * digitsVal digits ≤ NPY_MIN_INTP
    then -1
  else sign * digitsVal digits

/-- One named or frozen core dimension of the shared table: its name (the
character run, empty for a sign-led frozen size), its size (-1 while
inferred), its ignorable marker, and the size-inferred flag. -/
structure DimEntry where
  name : List Char
  size : Int
  canIgnore : Bool
  sizeInferred : Bool
  deriving DecidableEq, Repr

/-- The matching rule of the registration loop: a positive frozen size
matches by numeric equality, a name matches by character comparison. -/
def dimMatch (frozenSize : Int) (run : List Char) (e : DimEntry) : Bool :=
  if 0 < frozenSize then decide (e.size = frozenSize) else decide (e.name = run)

/-- First matching entry of the dimension table together with its index. -/
def findDimGo (frozenSize : Int) (run : List Char) :
    List DimEntry → Nat → Option (Nat × DimEntry)
  | [], _ => none
  | e :: rest, i =>
    if dimMatch frozenSize run e then some (i, e)
    else findDimGo frozenSize run rest (i + 1)

/-- Lookup over the whole dimension table. -/
def findDim (dims : List DimEntry) (frozenSize : Int) (run : List Char) :
    Option (Nat × DimEntry) :=
  findDimGo frozenSize run dims 0

/-- A parse error: the message, the offending character offset, and the
full signature text, exactly the three data formatted at the fail label. -/
structure ParseError where
  msg : String
  pos : Nat
  sig : List Char
  deriving DecidableEq, Repr

/-- The parsed signature: whether a nontrivial core signature remains
enabled, the shared dimension table, the per-argument core dimension
counts and the flattened dimension index list. -/
structure SigInfo where
  coreEnabled : Bool
  dims : List DimEntry
  coreNumDims : List Nat
  coreDimIxs : List Nat
  deriving DecidableEq, Repr

mutual

/-- The core-dimension list loop of _parse_signature: stops at the closing
parenthesis (consuming it), rejects an exhausted string, reads one
name or frozen-size entry, registers it in the dimension table checking
the ignorable marker for consistency, and hands over to the separator
step. -/
def parseDims (sig : List Char) : Nat → List Char → Nat → List DimEntry → List Nat → Nat →
    Except ParseError (List DimEntry × List Nat × Nat × List Char × Nat)
  | 0, _, pos, _, _, _ => .error ⟨"parser fuel exhausted", pos, sig⟩
  | fuel + 1, rem, pos, dims, ixs, nd =>
    match rem with
    | [] => .error ⟨"unexpected end of signature string", pos, sig⟩
    | c :: r =>
      if c = ')' then .ok (dims, ixs, nd, r, pos + 1)
      else if !isAlphaUnderscore c && getSizeNum (c :: r) ≤ 0 then
        .error ⟨"expect dimension name or non-zero frozen size", pos, sig⟩
      else
        parseDimsEntry sig fuel (c :: r) pos dims ixs nd
          (if isAlphaUnderscore c then -1 else getSizeNum (c :: r))

/-- Registration of one core-dimension entry (the body between
_get_end_of_name and the ix bookkeeping): a new name or frozen size is
appended to the table; a known one must agree on the ignorable marker. -/
def parseDimsEntry (sig : List Char) : Nat → List Char → Nat → List DimEntry → List Nat →
    Nat → Int → Except ParseError (List DimEntry × List Nat × Nat × List Char × Nat)
  | 0, _, pos, _, _, _, _ => .error ⟨"parser fuel exhausted", pos, sig⟩
  | fuel + 1, rem, pos, dims, ixs, nd, frozenSize =>
    match findDim dims frozenSize (rem.takeWhile isAlnumUnderscore) with
    | some (ix, e) =>
      if ((rem.dropWhile isAlnumUnderscore).head? = some '?' : Bool) && ! e.canIgnore then
        .error ⟨"question mark cannot be used, name already seen without question mark",
          pos, sig⟩
      else if !((rem.dropWhile isAlnumUnderscore).head? = some '?' : Bool)
          && e.canIgnore then
        .error ⟨"question mark must be used, name already seen with question mark",
          pos, sig⟩
      else
        parseDimsSep sig fuel
          (if ((rem.dropWhile isAlnumUnderscore).head? = some '?' : Bool) then
            (rem.dropWhile isAlnumUnderscore).drop 1
          else rem.dropWhile isAlnumUnderscore)
          (pos + (rem.takeWhile isAlnumUnderscore).length
            + (if ((rem.dropWhile isAlnumUnderscore).head? = some '?' : Bool) then 1 else 0))
          dims (ixs ++ [ix]) (nd + 1)
    | none =>
      parseDimsSep sig fuel
        (if ((rem.dropWhile isAlnumUnderscore).head? = some '?' : Bool) then
          (rem.dropWhile isAlnumUnderscore).drop 1
        else rem.dropWhile isAlnumUnderscore)
        (pos + (rem.takeWhile isAlnumUnderscore).length
          + (if ((rem.dropWhile isAlnumUnderscore).head? = some '?' : Bool) then 1 else 0))
        (dims ++ [⟨rem.takeWhile isAlnumUnderscore, frozenSize,
          ((rem.dropWhile isAlnumUnderscore).head? = some '?' : Bool),
          decide (frozenSize < 0)⟩])
        (ixs ++ [dims.length]) (nd + 1)

/-- The separator step after one core-dimension entry: skip spaces, then
a comma (not directly followed by the closing parenthesis) continues the
entry loop, the closing parenthesis ends the list (consumed), anything
else is a parse error. -/
def parseDimsSep (sig : List Char) : Nat → List Char → Nat → List DimEntry → List Nat →
    Nat → Except ParseError (List DimEntry × List Nat × Nat × List Char × Nat)
  | 0, _, pos, _, _, _ => .error ⟨"parser fuel exhausted", pos, sig⟩
  | fuel + 1, rem, pos, dims, ixs, nd =>
    match rem.dropWhile isSigSpace with
    | [] =>
      .error ⟨"expect comma or closing parenthesis",
        pos + (rem.takeWhile isSigSpace).length, sig⟩
    | c :: r2 =>
      if c = ',' then
        if (r2.dropWhile isSigSpace).head? = some ')' then
          .error ⟨"comma must not be followed by closing parenthesis",
            pos + (rem.takeWhile isSigSpace).length + 1
              + (r2.takeWhile isSigSpace).length, sig⟩
        else
          parseDims sig fuel (r2.dropWhile isSigSpace)
            (pos + (rem.takeWhile isSigSpace).length + 1
              + (r2.takeWhile isSigSpace).length) dims ixs nd
      else if c = ')' then
        .ok (dims, ixs, nd, r2, pos + (rem.takeWhile isSigSpace).length + 1)
      else
        .error ⟨"expect comma or closing parenthesis",
          pos + (rem.takeWhile isSigSpace).length, sig⟩

end

mutual

/-- The argument loop of _parse_signature: an empty remainder succeeds
exactly when all arguments were found; at the input-output boundary the
arrow is consumed; then one parenthesized core-dimension list is read. -/
def parseTop (sig : List Char) (nin nargs : Nat) :
    Nat → List Char → Nat → Nat → List DimEntry → List Nat → List Nat →
    Except ParseError (List DimEntry × List Nat × List Nat)
  | 0, _, pos, _, _, _, _ => .error ⟨"parser fuel exhausted", pos, sig⟩
  | fuel + 1, rem, pos, curArg, dims, coreNumDims, ixs =>
    match rem with
    | [] =>
      if curArg ≠ nargs then
        .error ⟨"incomplete signature: not all arguments found", pos, sig⟩
      else .ok (dims, coreNumDims, ixs)
    | c :: r =>
      if curArg = nin then
        if c = '-' then
          match r with
          | [] => .error ⟨"expect arrow", pos, sig⟩
          | c2 :: r2 =>
            if c2 = '>' then
              parseTopArg sig nin nargs fuel (r2.dropWhile isSigSpace)
                (pos + 2 + (r2.takeWhile isSigSpace).length) curArg dims coreNumDims ixs
            else .error ⟨"expect arrow", pos, sig⟩
        else .error ⟨"expect arrow", pos, sig⟩
      else parseTopArg sig nin nargs fuel (c :: r) pos curArg dims coreNumDims ixs

/-- One argument of the signature: the opening parenthesis, the
core-dimension list, and the comma separating it from the next argument
when one is still expected on the same side of the arrow. -/
def parseTopArg (sig : List Char) (nin nargs : Nat) :
    Nat → List Char → Nat → Nat → List DimEntry → List Nat → List Nat →
    Except ParseError (List DimEntry × List Nat × List Nat)
  | 0, _, pos, _, _, _, _ => .error ⟨"parser fuel exhausted", pos, sig⟩
  | fuel + 1, rem, pos, curArg, dims, coreNumDims, ixs =>
    match rem with
    | [] => .error ⟨"expect opening parenthesis", pos, sig⟩
    | c :: r2 =>
      if c = '(' then
        match parseDims sig (2 * (r2.dropWhile isSigSpace).length + 2)
            (r2.dropWhile isSigSpace)
            (pos + 1 + (r2.takeWhile isSigSpace).length) dims ixs 0 with
        | .error e => .error e
        | .ok (dims2, ixs2, nd2, rem3, pos3) =>
          if curArg + 1 ≠ nin ∧ curArg + 1 ≠ nargs then
            match rem3.dropWhile isSigSpace with
            | [] =>
              .error ⟨"expect comma", pos3 + (rem3.takeWhile isSigSpace).length, sig⟩
            | c3 :: r5 =>
              if c3 = ',' then
                parseTop sig nin nargs fuel (r5.dropWhile isSigSpace)
                  (pos3 + (rem3.takeWhile isSigSpace).length + 1
                    + (r5.takeWhile isSigSpace).length)
                  (curArg + 1) dims2 (coreNumDims ++ [nd2]) ixs2
              else
                .error ⟨"expect comma", pos3 + (rem3.takeWhile isSigSpace).length, sig⟩
          else
            parseTop sig nin nargs fuel (rem3.dropWhile isSigSpace)
              (pos3 + (rem3.takeWhile isSigSpace).length)
              (curArg + 1) dims2 (coreNumDims ++ [nd2]) ixs2
      else .error ⟨"expect opening parenthesis", pos, sig⟩

end

/-- _parse_signature: skip leading spaces, run the argument loop, and
disable the core machinery when no core dimension at all was declared. -/
def parseSignature (nin nout : Nat) (sig : List Char) : Except ParseError SigInfo :=
  match parseTop sig nin (nin + nout) (sig.length + 2) (sig.dropWhile isSigSpace)
      ((sig.takeWhile isSigSpace).length) 0 [] [] [] with
  | .error e => .error e
  | .ok (dims, coreNumDims, ixs) =>
    .ok ⟨ixs.length != 0, dims, coreNumDims, ixs⟩

theorem length_dropWhile_le_of {α : Type} (p : α → Bool) (l : List α) :
    (l.dropWhile p).length ≤ l.length := by
  induction l with
  | nil => simp [List.dropWhile]
  | cons c r ih =>
    rw [List.dropWhile_cons]
    by_cases h : p c
    · simp only [h, if_true]
      exact Nat.le_succ_of_le ih
    · simp [h]

/-- Whether a parser result is the fuel-exhaustion error.  The fuel
counter is a modelling artefact with no counterpart in the C loop;
parseSignature_fuel_sufficient below shows the budgets keep this branch
unreachable, so the model accepts and rejects exactly as the C parser
does. -/
def isFuelExhausted {α : Type} : Except ParseError α → Bool
  | .error e => e.msg == "parser fuel exhausted"
  | .ok _ => false

theorem isFuelExhausted_error {α : Type} (m : String) (p : Nat) (s : List Char)
    (hm : (m == "parser fuel exhausted") = false) :
    isFuelExhausted (α := α) (.error ⟨m, p, s⟩) = false := hm

theorem isFuelExhausted_ok {α : Type} (a : α) :
    isFuelExhausted (.ok a) = false := rfl

theorem length_take_drop_while {α : Type} (p : α → Bool) (l : List α) :
    (l.takeWhile p).length + (l.dropWhile p).length = l.length := by
  rw [← List.length_append, List.takeWhile_append_dropWhile]

theorem digitsVal_nonneg_go (l : List Char) (h : ∀ c ∈ l, isDigitChar c = true) :
    ∀ a : Int, 0 ≤ a →
      0 ≤ l.foldl (fun a c => a * 10 + ((c.toNat : Int) - 48)) a := by
  induction l with
  | nil => intro a ha; simpa using ha
  | cons c r ih =>
    intro a ha
    rw [List.foldl_cons]
    refine ih (fun x hx => h x (List.mem_cons_of_mem _ hx)) _ ?_
    have hc := h c (List.mem_cons_self _ _)
    simp only [isDigitChar, Bool.and_eq_true, decide_eq_true_eq] at hc
    have h48 : (48 : Int) ≤ (c.toNat : Int) := by exact_mod_cast hc.1
    omega

theorem digitsVal_nonneg (l : List Char) (h : ∀ c ∈ l, isDigitChar c = true) :
    0 ≤ digitsVal l :=
  digitsVal_nonneg_go l h 0 le_rfl

theorem getSizeNum_not_digit {c : Char} (r : List Char)
    (hd : isDigitChar c = false) (hp : c ≠ '+') (hm : c ≠ '-') :
    getSizeNum (c :: r) = -1 := by
  simp only [getSizeNum, List.head?_cons, Option.some.injEq]
  simp [hm, hp, List.takeWhile_cons, hd]

theorem getSizeNum_minus_nonpos (r : List Char) : getSizeNum ('-' :: r) ≤ 0 := by
  simp only [getSizeNum, List.head?_cons, Option.some.injEq]
  norm_num
  split
  · norm_num
  · split
    · norm_num
    · split
      · norm_num
      · have hnn := digitsVal_nonneg (r.takeWhile isDigitChar)
          (fun c hc => List.mem_takeWhile_imp hc)
        omega

theorem getSizeNum_pos_head {c : Char} {r : List Char}
    (h : 0 < getSizeNum (c :: r)) : isAlnumUnderscore c = true ∨ c = '+' := by
  by_cases hp : c = '+'
  · exact Or.inr hp
  · by_cases hm : c = '-'
    · subst hm
      exact absurd h (by have := getSizeNum_minus_nonpos r; omega)
    · by_cases hd : isDigitChar c = true
      · exact Or.inl (by simp [isAlnumUnderscore, hd])
      · rw [getSizeNum_not_digit r (Bool.of_not_eq_true hd) hp hm] at h
        exact absurd h (by norm_num)

/-- Every successful run of the core-dimension list loop consumes at
least one character (the closing parenthesis), mirroring the strictly
advancing index i of the C inner loop. -/
theorem parseDims_rem_length (fuel : Nat) :
    (∀ sig rem pos dims ixs nd dims2 ixs2 nd2 rem2 pos2,
      parseDims sig fuel rem pos dims ixs nd = .ok (dims2, ixs2, nd2, rem2, pos2) →
      rem2.length < rem.length) ∧
    (∀ sig rem pos dims ixs nd fr dims2 ixs2 nd2 rem2 pos2,
      parseDimsEntry sig fuel rem pos dims ixs nd fr
        = .ok (dims2, ixs2, nd2, rem2, pos2) →
      rem2.length < rem.length) ∧
    (∀ sig rem pos dims ixs nd dims2 ixs2 nd2 rem2 pos2,
      parseDimsSep sig fuel rem pos dims ixs nd
        = .ok (dims2, ixs2, nd2, rem2, pos2) →
      rem2.length < rem.length) := by
  induction fuel with
  | zero =>
    refine ⟨?_, ?_, ?_⟩
    · intro sig rem pos dims ixs nd dims2 ixs2 nd2 rem2 pos2 h
      rw [parseDims.eq_def] at h
      exact absurd h (by simp)
    · intro sig rem pos dims ixs nd fr dims2 ixs2 nd2 rem2 pos2 h
      simp only [parseDimsEntry] at h
      exact absurd h (by simp)
    · intro sig rem pos dims ixs nd dims2 ixs2 nd2 rem2 pos2 h
      simp only [parseDimsSep] at h
      exact absurd h (by simp)
  | succ fuel ih =>
    obtain ⟨ihD, ihE, ihS⟩ := ih
    refine ⟨?_, ?_, ?_⟩
    · intro sig rem pos dims ixs nd dims2 ixs2 nd2 rem2 pos2 h
      cases rem with
      | nil =>
        simp only [parseDims] at h
        exact absurd h (by simp)
      | cons c r =>
        simp only [parseDims] at h
        by_cases hc : c = ')'
        · rw [if_pos hc] at h
          simp only [Except.ok.injEq, Prod.mk.injEq] at h
          obtain ⟨e1, e2, e3, e4, e5⟩ := h
          subst e4
          simp
        · rw [if_neg hc] at h
          by_cases hfr : (!isAlphaUnderscore c && decide (getSizeNum (c :: r) ≤ 0)) = true
          · rw [if_pos hfr] at h
            exact absurd h (by simp)
          · rw [if_neg hfr] at h
            exact ihE _ _ _ _ _ _ _ _ _ _ _ _ h
    · intro sig rem pos dims ixs nd fr dims2 ixs2 nd2 rem2 pos2 h
      have hdrop : ((rem.dropWhile isAlnumUnderscore).drop 1).length ≤ rem.length := by
        have h1 := length_dropWhile_le_of isAlnumUnderscore rem
        rw [List.length_drop]
        omega
      have hdrop0 : (rem.dropWhile isAlnumUnderscore).length ≤ rem.length :=
        length_dropWhile_le_of isAlnumUnderscore rem
      simp only [parseDimsEntry] at h
      split at h
      · split at h
        · exact absurd h (by simp)
        · split at h
          · exact absurd h (by simp)
          · have hlt := ihS _ _ _ _ _ _ _ _ _ _ _ h
            refine lt_of_lt_of_le hlt ?_
            split
            · exact hdrop
            · exact hdrop0
      · have hlt := ihS _ _ _ _ _ _ _ _ _ _ _ h
        refine lt_of_lt_of_le hlt ?_
        split
        · exact hdrop
        · exact hdrop0
    · intro sig rem pos dims ixs nd dims2 ixs2 nd2 rem2 pos2 h
      simp only [parseDimsSep] at h
      split at h
      · exact absurd h (by simp)
      · rename_i c r2 heqd
        have hlen : r2.length + 1 ≤ rem.length := by
          have h1 := length_dropWhile_le_of isSigSpace rem
          rw [heqd] at h1
          simpa using h1
        split at h
        · split at h
          · exact absurd h (by simp)
          · have hlt := ihD _ _ _ _ _ _ _ _ _ _ _ h
            have h2 := length_dropWhile_le_of isSigSpace r2
            omega
        · split at h
          · simp only [Except.ok.injEq, Prod.mk.injEq] at h
            obtain ⟨e1, e2, e3, e4, e5⟩ := h
            subst e4
            omega
          · exact absurd h (by simp)

/-- The separator step on a remainder headed by a sign character fails
at once with the separator error (the C loop does the same: _get_size
accepts the sign but _get_end_of_name does not advance past it). -/
theorem parseDimsSep_plus (sig : List Char) (f2 : Nat) (r : List Char) (pos : Nat)
    (dims : List DimEntry) (ixs : List Nat) (nd : Nat) :
    isFuelExhausted (parseDimsSep sig (f2 + 1) ('+' :: r) pos dims ixs nd) = false := by
  simp only [parseDimsSep]
  rw [List.dropWhile_cons, if_neg (by decide)]
  dsimp only
  rw [if_neg (by decide), if_neg (by decide)]
  exact isFuelExhausted_error _ _ _ (by decide)

/-- With two fuel units per remaining character the core-dimension
chain never runs out of fuel: each three-step round of the mutual
recursion consumes at least two characters. -/
theorem parseDims_fuel_ok (fuel : Nat) :
    (∀ sig rem pos dims ixs nd, 2 * rem.length + 1 ≤ fuel →
      isFuelExhausted (parseDims sig fuel rem pos dims ixs nd) = false) ∧
    (∀ sig (c : Char) (r : List Char) pos dims ixs nd fr,
      2 * (c :: r).length ≤ fuel → (isAlnumUnderscore c = true ∨ c = '+') →
      isFuelExhausted (parseDimsEntry sig fuel (c :: r) pos dims ixs nd fr) = false) ∧
    (∀ sig rem pos dims ixs nd, 2 * rem.length + 1 ≤ fuel →
      isFuelExhausted (parseDimsSep sig fuel rem pos dims ixs nd) = false) := by
  induction fuel with
  | zero =>
    refine ⟨?_, ?_, ?_⟩
    · intro sig rem pos dims ixs nd hf
      exact absurd hf (by omega)
    · intro sig c r pos dims ixs nd fr hf hhead
      rw [List.length_cons] at hf
      exact absurd hf (by omega)
    · intro sig rem pos dims ixs nd hf
      exact absurd hf (by omega)
  | succ fuel ih =>
    obtain ⟨ihD, ihE, ihS⟩ := ih
    refine ⟨?_, ?_, ?_⟩
    · intro sig rem pos dims ixs nd hf
      cases rem with
      | nil =>
        simp only [parseDims]
        exact isFuelExhausted_error _ _ _ (by decide)
      | cons c r =>
        simp only [parseDims]
        by_cases hc : c = ')'
        · rw [if_pos hc]
          exact isFuelExhausted_ok _
        · rw [if_neg hc]
          by_cases hfr : (!isAlphaUnderscore c && decide (getSizeNum (c :: r) ≤ 0)) = true
          · rw [if_pos hfr]
            exact isFuelExhausted_error _ _ _ (by decide)
          · rw [if_neg hfr]
            refine ihE _ _ _ _ _ _ _ _ ?_ ?_
            · rw [List.length_cons] at hf ⊢
              omega
            · by_cases hal : isAlphaUnderscore c = true
              · exact Or.inl (by simp [isAlnumUnderscore, hal])
              · have hsz : 0 < getSizeNum (c :: r) := by
                  by_contra hle
                  have hle2 : getSizeNum (c :: r) ≤ 0 := by omega
                  exact hfr (by rw [Bool.of_not_eq_true hal]; simp [hle2])
                exact getSizeNum_pos_head hsz
    · intro sig c r pos dims ixs nd fr hf hhead
      rw [List.length_cons] at hf
      rcases hhead with hal | hplus
      · have htake : 1 ≤ ((c :: r).takeWhile isAlnumUnderscore).length := by
          rw [List.takeWhile_cons, if_pos (by rw [hal])]
          simp
        have hsplit := length_take_drop_while isAlnumUnderscore (c :: r)
        rw [List.length_cons] at hsplit
        have hsep : ∀ rem2,
            rem2 = (if (((c :: r).dropWhile isAlnumUnderscore).head? = some '?' : Bool)
              then ((c :: r).dropWhile isAlnumUnderscore).drop 1
              else (c :: r).dropWhile isAlnumUnderscore) →
            ∀ pos2 dims2 ixs2 nd2,
              isFuelExhausted (parseDimsSep sig fuel rem2 pos2 dims2 ixs2 nd2)
                = false := by
          intro rem2 h2 pos2 dims2 ixs2 nd2
          refine ihS _ _ _ _ _ _ ?_
          rw [h2]
          split
          · rw [List.length_drop]
            omega
          · omega
        simp only [parseDimsEntry]
        split
        · split
          · exact isFuelExhausted_error _ _ _ (by decide)
          · split
            · exact isFuelExhausted_error _ _ _ (by decide)
            · exact hsep _ rfl _ _ _ _
        · exact hsep _ rfl _ _ _ _
      · subst hplus
        have hdw : ('+' :: r).dropWhile isAlnumUnderscore = '+' :: r := by
          rw [List.dropWhile_cons, if_neg (by decide)]
        have hq2 : ((('+' :: r).head? = some '?' : Bool)) = false := by
          rw [List.head?_cons]
          decide
        cases fuel with
        | zero => exact absurd hf (by omega)
        | succ f2 =>
          simp only [parseDimsEntry, hdw, hq2, Bool.false_and, Bool.not_false,
            Bool.true_and, Bool.false_eq_true, if_false]
          split
          · split
            · exact isFuelExhausted_error _ _ _ (by decide)
            · exact parseDimsSep_plus sig f2 r _ _ _ _
          · exact parseDimsSep_plus sig f2 r _ _ _ _
    · intro sig rem pos dims ixs nd hf
      cases hds : rem.dropWhile isSigSpace with
      | nil =>
        simp only [parseDimsSep]
        rw [hds]
        exact isFuelExhausted_error _ _ _ (by decide)
      | cons c r2 =>
        have hlen : r2.length + 1 ≤ rem.length := by
          have h1 := length_dropWhile_le_of isSigSpace rem
          rw [hds] at h1
          simpa using h1
        simp only [parseDimsSep]
        rw [hds]
        dsimp only
        by_cases hc : c = ','
        · rw [if_pos hc]
          by_cases hcl : (r2.dropWhile isSigSpace).head? = some ')'
          · rw [if_pos hcl]
            exact isFuelExhausted_error _ _ _ (by decide)
          · rw [if_neg hcl]
            refine ihD _ _ _ _ _ _ ?_
            have h2 := length_dropWhile_le_of isSigSpace r2
            omega
        · rw [if_neg hc]
          by_cases hcp : c = ')'
          · rw [if_pos hcp]
            exact isFuelExhausted_ok _
          · rw [if_neg hcp]
            exact isFuelExhausted_error _ _ _ (by decide)

/-- With one fuel unit per remaining character (plus slack) the
argument chain never runs out of fuel either: each round consumes at
least the two parentheses of one argument. -/
theorem parseTop_fuel_ok (fuel : Nat) :
    (∀ sig nin nargs rem pos curArg dims coreNumDims ixs,
      rem.length + 2 ≤ fuel →
      isFuelExhausted (parseTop sig nin nargs fuel rem pos curArg dims coreNumDims ixs)
        = false) ∧
    (∀ sig nin nargs rem pos curArg dims coreNumDims ixs,
      rem.length + 1 ≤ fuel →
      isFuelExhausted (parseTopArg sig nin nargs fuel rem pos curArg dims coreNumDims ixs)
        = false) := by
  induction fuel with
  | zero =>
    refine ⟨?_, ?_⟩
    · intro sig nin nargs rem pos curArg dims coreNumDims ixs hf
      exact absurd hf (by omega)
    · intro sig nin nargs rem pos curArg dims coreNumDims ixs hf
      exact absurd hf (by omega)
  | succ fuel ih =>
    obtain ⟨ihT, ihA⟩ := ih
    refine ⟨?_, ?_⟩
    · intro sig nin nargs rem pos curArg dims coreNumDims ixs hf
      cases rem with
      | nil =>
        simp only [parseTop]
        by_cases hca : curArg ≠ nargs
        · rw [if_pos hca]
          exact isFuelExhausted_error _ _ _ (by decide)
        · rw [if_neg hca]
          exact isFuelExhausted_ok _
      | cons c r =>
        simp only [parseTop]
        by_cases hni : curArg = nin
        · rw [if_pos hni]
          by_cases harrow : c = '-'
          · rw [if_pos harrow]
            cases r with
            | nil => exact isFuelExhausted_error _ _ _ (by decide)
            | cons c2 r2 =>
              dsimp only
              by_cases hgt : c2 = '>'
              · rw [if_pos hgt]
                refine ihA _ _ _ _ _ _ _ _ _ ?_
                have h1 := length_dropWhile_le_of isSigSpace r2
                simp only [List.length_cons] at hf
                omega
              · rw [if_neg hgt]
                exact isFuelExhausted_error _ _ _ (by decide)
          · rw [if_neg harrow]
            exact isFuelExhausted_error _ _ _ (by decide)
        · rw [if_neg hni]
          refine ihA _ _ _ _ _ _ _ _ _ ?_
          omega
    · intro sig nin nargs rem pos curArg dims coreNumDims ixs hf
      cases rem with
      | nil =>
        simp only [parseTopArg]
        exact isFuelExhausted_error _ _ _ (by decide)
      | cons c r2 =>
        simp only [List.length_cons] at hf
        simp only [parseTopArg]
        by_cases hc : c = '('
        · rw [if_pos hc]
          have hD := (parseDims_fuel_ok (2 * (r2.dropWhile isSigSpace).length + 2)).1
            sig (r2.dropWhile isSigSpace) (pos + 1 + (r2.takeWhile isSigSpace).length)
            dims ixs 0 (by omega)
          rcases heqD : parseDims sig (2 * (r2.dropWhile isSigSpace).length + 2)
              (r2.dropWhile isSigSpace)
              (pos + 1 + (r2.takeWhile isSigSpace).length) dims ixs 0 with
            e | ⟨dims2m, ixs2m, nd2m, rem3, pos3⟩
          · rw [heqD] at hD
            exact hD
          · dsimp only
            have hlt := (parseDims_rem_length _).1 _ _ _ _ _ _ _ _ _ _ _ heqD
            have hr2 := length_dropWhile_le_of isSigSpace r2
            by_cases hcond : curArg + 1 ≠ nin ∧ curArg + 1 ≠ nargs
            · rw [if_pos hcond]
              rcases heq3 : rem3.dropWhile isSigSpace with _ | ⟨c3, r5⟩
              · exact isFuelExhausted_error _ _ _ (by decide)
              · dsimp only
                have hr3 := length_dropWhile_le_of isSigSpace rem3
                rw [heq3, List.length_cons] at hr3
                by_cases hc3 : c3 = ','
                · rw [if_pos hc3]
                  refine ihT _ _ _ _ _ _ _ _ _ ?_
                  have hr5 := length_dropWhile_le_of isSigSpace r5
                  omega
                · rw [if_neg hc3]
                  exact isFuelExhausted_error _ _ _ (by decide)
            · rw [if_neg hcond]
              refine ihT _ _ _ _ _ _ _ _ _ ?_
              have hr4 := length_dropWhile_le_of isSigSpace rem3
              omega
        · rw [if_neg hc]
          exact isFuelExhausted_error _ _ _ (by decide)

/-- The fuel budgets of parseSignature are sufficient for every input:
the fuel-exhaustion branch is unreachable, so the model parses or
rejects exactly where _parse_signature does, with no failure path of
its own. -/
theorem parseSignature_fuel_sufficient (nin nout : Nat) (sig : List Char) :
    isFuelExhausted (parseSignature nin nout sig) = false := by
  unfold parseSignature
  have hT := (parseTop_fuel_ok (sig.length + 2)).1 sig nin (nin + nout)
    (sig.dropWhile isSigSpace) ((sig.takeWhile isSigSpace).length) 0 [] [] []
    (by have := length_dropWhile_le_of isSigSpace sig; omega)
  rcases heq : parseTop sig nin (nin + nout) (sig.length + 2)
      (sig.dropWhile isSigSpace) ((sig.takeWhile isSigSpace).length) 0 [] [] [] with
    e | ⟨dims, cnd, ixs⟩
  · rw [heq] at hT
    exact hT
  · exact isFuelExhausted_ok _

mutual

/-- Independent scanner for the specification side: the alpha-initial
maximal name runs of a string, each paired with whether a question mark
directly follows it; digit-initial runs are frozen sizes, not names. -/
def scanRuns : List Char → List (List Char × Bool)
  | [] => []
  | c :: r =>
    if isAlphaUnderscore c then scanName [c] r
    else if isDigitChar c then scanSkip r
    else scanRuns r

/-- Scanner state inside a name run: `acc` holds the run read so far in
reverse. -/
def scanName (acc : List Char) : List Char → List (List Char × Bool)
  | [] => [(acc.reverse, false)]
  | c :: r =>
    if isAlnumUnderscore c then scanName (c :: acc) r
    else (acc.reverse, decide (c = '?')) :: scanRuns r

/-- Scanner state inside a digit-initial (frozen size) run. -/
def scanSkip : List Char → List (List Char × Bool)
  | [] => []
  | c :: r => if isAlnumUnderscore c then scanSkip r else scanRuns r

end

/-- The ignorable flag the parser has recorded for a name: the first
table entry carrying that name (the registration loop matches names by
first occurrence). -/
def lookupFlag (dims : List DimEntry) (n : List Char) : Option Bool :=
  (findDim dims (-1) n).map (fun pr => pr.2.canIgnore)

/- ----------------------------------------------------------------------
Character-class and scanner lemmas for claim C9.
---------------------------------------------------------------------- -/

theorem isAlpha_alnum {c : Char} (h : isAlphaUnderscore c = true) :
    isAlnumUnderscore c = true := by
  simp [isAlnumUnderscore, h]

theorem isDigit_alnum {c : Char} (h : isDigitChar c = true) :
    isAlnumUnderscore c = true := by
  simp [isAlnumUnderscore, h]

theorem isSigSpace_not_alnum {c : Char} (h : isSigSpace c = true) :
    isAlnumUnderscore c = false := by
  simp only [isSigSpace, Bool.or_eq_true, decide_eq_true_eq] at h
  rcases h with h | h <;> subst h <;> decide

theorem isDigit_not_alpha {c : Char} (h : isDigitChar c = true) :
    isAlphaUnderscore c = false := by
  cases ha : isAlphaUnderscore c
  · rfl
  · exfalso
    simp only [isAlphaUnderscore, Bool.or_eq_true, Bool.and_eq_true,
      decide_eq_true_eq] at ha
    simp only [isDigitChar, Bool.and_eq_true, decide_eq_true_eq] at h
    omega

theorem scanName_spec (r : List Char) :
    ∀ acc, scanName acc r = (acc.reverse ++ r.takeWhile isAlnumUnderscore,
      decide ((r.dropWhile isAlnumUnderscore).head? = some '?')) ::
      scanRuns (r.dropWhile isAlnumUnderscore) := by
  induction r with
  | nil =>
    intro acc
    simp [scanName, List.takeWhile, List.dropWhile]
    rw [scanRuns]
  | cons c r2 ih =>
    intro acc
    rw [scanName, List.takeWhile_cons, List.dropWhile_cons]
    by_cases h : isAlnumUnderscore c = true
    · rw [if_pos h, if_pos (by rw [h]), if_pos (by rw [h]), ih (c :: acc)]
      simp
    · rw [if_neg (by rw [Bool.of_not_eq_true h]; simp),
        if_neg (by rw [Bool.of_not_eq_true h]; simp),
        if_neg (by rw [Bool.of_not_eq_true h]; simp)]
      have hsk : scanRuns (c :: r2) = scanRuns r2 := by
        have h1 : isAlphaUnderscore c = false := by
          cases ha : isAlphaUnderscore c
          · rfl
          · rw [isAlpha_alnum ha] at h; simp at h
        have h2 : isDigitChar c = false := by
          cases hd : isDigitChar c
          · rfl
          · rw [isDigit_alnum hd] at h; simp at h
        rw [scanRuns, if_neg (by rw [h1]; simp), if_neg (by rw [h2]; simp)]
      rw [← hsk]
      simp [List.head?_cons]

theorem scanSkip_spec (r : List Char) :
    scanSkip r = scanRuns (r.dropWhile isAlnumUnderscore) := by
  induction r with
  | nil => simp [scanSkip, List.dropWhile, scanRuns]
  | cons c r2 ih =>
    rw [scanSkip, List.dropWhile_cons]
    by_cases h : isAlnumUnderscore c = true
    · rw [if_pos (by rw [h]), if_pos (by rw [h]), ih]
    · rw [if_neg (by rw [Bool.of_not_eq_true h]; simp),
        if_neg (by rw [Bool.of_not_eq_true h]; simp)]
      have h1 : isAlphaUnderscore c = false := by
        cases ha : isAlphaUnderscore c
        · rfl
        · rw [isAlpha_alnum ha] at h; simp at h
      have h2 : isDigitChar c = false := by
        cases hd : isDigitChar c
        · rfl
        · rw [isDigit_alnum hd] at h; simp at h
      rw [scanRuns, if_neg (by rw [h1]; simp), if_neg (by rw [h2]; simp)]

theorem scanRuns_cons_other {c : Char} (r : List Char)
    (h : isAlnumUnderscore c = false) : scanRuns (c :: r) = scanRuns r := by
  have h1 : isAlphaUnderscore c = false := by
    cases ha : isAlphaUnderscore c
    · rfl
    · rw [isAlpha_alnum ha] at h; exact absurd h (by simp)
  have h2 : isDigitChar c = false := by
    cases hd : isDigitChar c
    · rfl
    · rw [isDigit_alnum hd] at h; exact absurd h (by simp)
  rw [scanRuns, if_neg (by rw [h1]; simp), if_neg (by rw [h2]; simp)]

theorem scanRuns_name {c : Char} (r : List Char) (h : isAlphaUnderscore c = true) :
    scanRuns (c :: r) = (c :: r.takeWhile isAlnumUnderscore,
      decide ((r.dropWhile isAlnumUnderscore).head? = some '?')) ::
      scanRuns (r.dropWhile isAlnumUnderscore) := by
  rw [scanRuns, if_pos (by rw [h]), scanName_spec r [c]]
  simp

theorem scanRuns_digit {c : Char} (r : List Char) (h : isDigitChar c = true) :
    scanRuns (c :: r) = scanRuns (r.dropWhile isAlnumUnderscore) := by
  rw [scanRuns, if_neg (by rw [isDigit_not_alpha h]; simp), if_pos (by rw [h]),
    scanSkip_spec r]

theorem scanRuns_dropWhile_spaces (l : List Char) :
    scanRuns (l.dropWhile isSigSpace) = scanRuns l := by
  induction l with
  | nil => rfl
  | cons c r ih =>
    rw [List.dropWhile_cons]
    by_cases h : isSigSpace c = true
    · rw [if_pos (by rw [h]), ih, scanRuns_cons_other r (isSigSpace_not_alnum h)]
    · rw [if_neg (by rw [Bool.of_not_eq_true h]; simp)]

theorem scanRuns_drop_question {l : List Char} (h : l.head? = some '?') :
    scanRuns l = scanRuns (l.drop 1) := by
  cases l with
  | nil => simp at h
  | cons c r =>
    rw [List.head?_cons] at h
    injection h with h2
    subst h2
    rw [scanRuns_cons_other r (by decide)]
    rfl

/- ----------------------------------------------------------------------
Dimension-table lookup lemmas for claim C9.
---------------------------------------------------------------------- -/

theorem findDimGo_append_some {fr : Int} {run : List Char} {p : Nat × DimEntry}
    {dims : List DimEntry} (ds : List DimEntry) :
    ∀ {i : Nat}, findDimGo fr run dims i = some p →
      findDimGo fr run (dims ++ ds) i = some p := by
  induction dims with
  | nil => intro i h; simp [findDimGo] at h
  | cons e rest ih =>
    intro i h
    simp only [List.cons_append, findDimGo] at h ⊢
    by_cases hm : dimMatch fr run e = true
    · rw [if_pos hm] at h ⊢; exact h
    · rw [if_neg (by rw [Bool.of_not_eq_true hm]; simp)] at h ⊢
      exact ih h

theorem findDim_append_some {dims : List DimEntry} {fr : Int} {run : List Char}
    {p : Nat × DimEntry} (h : findDim dims fr run = some p) (ds : List DimEntry) :
    findDim (dims ++ ds) fr run = some p := findDimGo_append_some ds h

theorem lookupFlag_append {dims : List DimEntry} {n : List Char} {f : Bool}
    (h : lookupFlag dims n = some f) (ds : List DimEntry) :
    lookupFlag (dims ++ ds) n = some f := by
  unfold lookupFlag at h ⊢
  rcases hf : findDim dims (-1) n with _ | p
  · rw [hf] at h; simp at h
  · rw [hf] at h
    rw [findDim_append_some hf ds]
    exact h

theorem findDimGo_none_append {fr : Int} {run : List Char} {dims : List DimEntry}
    (e : DimEntry) :
    ∀ {i : Nat}, findDimGo fr run dims i = none →
      findDimGo fr run (dims ++ [e]) i =
        (if dimMatch fr run e then some (i + dims.length, e) else none) := by
  induction dims with
  | nil =>
    intro i h
    simp only [List.nil_append, findDimGo, List.length_nil]
    simp
  | cons e2 rest ih =>
    intro i h
    simp only [List.cons_append, findDimGo, List.length_cons] at h ⊢
    by_cases hm : dimMatch fr run e2 = true
    · rw [if_pos hm] at h; exact absurd h (by simp)
    · rw [if_neg (by rw [Bool.of_not_eq_true hm]; simp)] at h ⊢
      simp only [List.append_eq]
      rw [ih h]
      have : i + 1 + rest.length = i + (rest.length + 1) := by omega
      rw [this]

theorem lookupFlag_append_new {dims : List DimEntry} {run : List Char}
    (h : findDim dims (-1) run = none) (e : DimEntry) (he : e.name = run) :
    lookupFlag (dims ++ [e]) run = some e.canIgnore := by
  unfold findDim at h
  unfold lookupFlag findDim
  have hm : dimMatch (-1) run e = true := by
    unfold dimMatch
    rw [if_neg (by omega)]
    simp [he]
  rw [findDimGo_none_append e h, if_pos hm]
  rfl

theorem lookupFlag_of_findDim {dims : List DimEntry} {run : List Char}
    {ix : Nat} {e : DimEntry} (h : findDim dims (-1) run = some (ix, e)) :
    lookupFlag dims run = some e.canIgnore := by
  unfold lookupFlag
  rw [h]
  rfl

/- ----------------------------------------------------------------------
Every parse error carries the full signature text (claim C9, reporting
half): the single fail label formats the message with the position and
the complete signature.
---------------------------------------------------------------------- -/

theorem parseDims_error_sig (fuel : Nat) :
    (∀ sig rem pos dims ixs nd e,
      parseDims sig fuel rem pos dims ixs nd = .error e → e.sig = sig) ∧
    (∀ sig rem pos dims ixs nd fr e,
      parseDimsEntry sig fuel rem pos dims ixs nd fr = .error e → e.sig = sig) ∧
    (∀ sig rem pos dims ixs nd e,
      parseDimsSep sig fuel rem pos dims ixs nd = .error e → e.sig = sig) := by
  induction fuel with
  | zero =>
    refine ⟨?_, ?_, ?_⟩
    · intro sig rem pos dims ixs nd e h
      rw [parseDims.eq_def] at h
      injection h with h2
      subst h2; rfl
    · intro sig rem pos dims ixs nd fr e h
      rw [parseDimsEntry.eq_def] at h
      injection h with h2
      subst h2; rfl
    · intro sig rem pos dims ixs nd e h
      rw [parseDimsSep.eq_def] at h
      injection h with h2
      subst h2; rfl
  | succ fuel ih =>
    obtain ⟨ihD, ihE, ihS⟩ := ih
    refine ⟨?_, ?_, ?_⟩
    · intro sig rem pos dims ixs nd e h
      cases rem with
      | nil =>
        simp only [parseDims] at h
        injection h with h2; subst h2; rfl
      | cons c r =>
        simp only [parseDims] at h
        by_cases hc : c = ')'
        · rw [if_pos hc] at h
          exact absurd h (by simp)
        · rw [if_neg hc] at h
          by_cases hfr : (!isAlphaUnderscore c && decide (getSizeNum (c :: r) ≤ 0)) = true
          · rw [if_pos hfr] at h
            injection h with h2; subst h2; rfl
          · rw [if_neg hfr] at h
            exact ihE _ _ _ _ _ _ _ _ h
    · intro sig rem pos dims ixs nd fr e h
      simp only [parseDimsEntry] at h
      split at h
      · split at h
        · injection h with h2; subst h2; rfl
        · split at h
          · injection h with h2; subst h2; rfl
          · exact ihS _ _ _ _ _ _ _ h
      · exact ihS _ _ _ _ _ _ _ h
    · intro sig rem pos dims ixs nd e h
      simp only [parseDimsSep] at h
      split at h
      · injection h with h2; subst h2; rfl
      · split at h
        · split at h
          · injection h with h2; subst h2; rfl
          · exact ihD _ _ _ _ _ _ _ h
        · split at h
          · exact absurd h (by simp)
          · injection h with h2; subst h2; rfl

theorem parseTop_error_sig (fuel : Nat) :
    (∀ sig nin nargs rem pos curArg dims coreNumDims ixs e,
      parseTop sig nin nargs fuel rem pos curArg dims coreNumDims ixs = .error e →
        e.sig = sig) ∧
    (∀ sig nin nargs rem pos curArg dims coreNumDims ixs e,
      parseTopArg sig nin nargs fuel rem pos curArg dims coreNumDims ixs = .error e →
        e.sig = sig) := by
  induction fuel with
  | zero =>
    refine ⟨?_, ?_⟩
    · intro sig nin nargs rem pos curArg dims coreNumDims ixs e h
      rw [parseTop.eq_def] at h
      injection h with h2
      subst h2; rfl
    · intro sig nin nargs rem pos curArg dims coreNumDims ixs e h
      rw [parseTopArg.eq_def] at h
      injection h with h2
      subst h2; rfl
  | succ fuel ih =>
    obtain ⟨ihT, ihA⟩ := ih
    refine ⟨?_, ?_⟩
    · intro sig nin nargs rem pos curArg dims coreNumDims ixs e h
      simp only [parseTop] at h
      split at h
      · split at h
        · injection h with h2; subst h2; rfl
        · exact absurd h (by simp)
      · split at h
        · split at h
          · split at h
            · injection h with h2; subst h2; rfl
            · split at h
              · exact ihA _ _ _ _ _ _ _ _ _ _ h
              · injection h with h2; subst h2; rfl
          · injection h with h2; subst h2; rfl
        · exact ihA _ _ _ _ _ _ _ _ _ _ h
    · intro sig nin nargs rem pos curArg dims coreNumDims ixs e h
      simp only [parseTopArg] at h
      split at h
      · injection h with h2; subst h2; rfl
      · split at h
        · split at h
          · injection h with h2
            subst h2
            exact (parseDims_error_sig _).1 _ _ _ _ _ _ _ (by assumption)
          · split at h
            · split at h
              · injection h with h2; subst h2; rfl
              · split at h
                · exact ihT _ _ _ _ _ _ _ _ _ _ h
                · injection h with h2; subst h2; rfl
            · exact ihT _ _ _ _ _ _ _ _ _ _ h
        · injection h with h2; subst h2; rfl

theorem parseSignature_error_sig {nin nout : Nat} {s : List Char} {e : ParseError}
    (h : parseSignature nin nout s = .error e) : e.sig = s := by
  unfold parseSignature at h
  split at h
  · injection h with h2
    subst h2
    exact (parseTop_error_sig _).1 _ _ _ _ _ _ _ _ _ _ (by assumption)
  · exact absurd h (by simp)

/- ----------------------------------------------------------------------
Success of the parser registers every scanned name run with exactly its
question-mark flag (claim C9, consistency half).
---------------------------------------------------------------------- -/

theorem canIgnore_eq_of_checks {b1 b2 : Bool}
    (h1 : ¬(b1 && !b2) = true) (h2 : ¬(!b1 && b2) = true) : b1 = b2 := by
  cases b1 <;> cases b2 <;> simp_all

theorem scanRuns_afterName (rem : List Char) :
    scanRuns (if ((rem.dropWhile isAlnumUnderscore).head? = some '?' : Bool) then
        (rem.dropWhile isAlnumUnderscore).drop 1
      else rem.dropWhile isAlnumUnderscore)
      = scanRuns (rem.dropWhile isAlnumUnderscore) := by
  by_cases hq : ((rem.dropWhile isAlnumUnderscore).head? = some '?' : Bool) = true
  · rw [if_pos hq]
    exact (scanRuns_drop_question (by simpa using hq)).symm
  · rw [if_neg hq]

theorem scanRuns_dropWhile_alnum_eq (rem : List Char)
    (h : ∀ c, rem.head? = some c → isAlphaUnderscore c = false) :
    scanRuns (rem.dropWhile isAlnumUnderscore) = scanRuns rem := by
  cases rem with
  | nil => rfl
  | cons c r =>
    have hca := h c rfl
    by_cases hd : isDigitChar c = true
    · rw [List.dropWhile_cons, if_pos (by rw [isDigit_alnum hd])]
      exact (scanRuns_digit r hd).symm
    · have hcn : isAlnumUnderscore c = false := by
        simp [isAlnumUnderscore, hca, Bool.of_not_eq_true hd]
      rw [List.dropWhile_cons, if_neg (by rw [hcn]; simp)]

theorem scanRuns_cons_alpha_decomp {c : Char} (r : List Char)
    (h : isAlphaUnderscore c = true) :
    scanRuns (c :: r) = ((c :: r).takeWhile isAlnumUnderscore,
      decide (((c :: r).dropWhile isAlnumUnderscore).head? = some '?')) ::
      scanRuns ((c :: r).dropWhile isAlnumUnderscore) := by
  rw [List.takeWhile_cons, if_pos (by rw [isAlpha_alnum h]),
    List.dropWhile_cons, if_pos (by rw [isAlpha_alnum h])]
  exact scanRuns_name r h

theorem parseDims_runs (fuel : Nat) :
    (∀ sig rem pos dims ixs nd dims2 ixs2 nd2 rem2 pos2,
      parseDims sig fuel rem pos dims ixs nd = .ok (dims2, ixs2, nd2, rem2, pos2) →
      (∀ n f, lookupFlag dims n = some f → lookupFlag dims2 n = some f) ∧
      (∀ p ∈ scanRuns rem, lookupFlag dims2 p.1 = some p.2 ∨ p ∈ scanRuns rem2)) ∧
    (∀ sig rem pos dims ixs nd fr dims2 ixs2 nd2 rem2 pos2,
      parseDimsEntry sig fuel rem pos dims ixs nd fr = .ok (dims2, ixs2, nd2, rem2, pos2) →
      (∀ c, rem.head? = some c → isAlphaUnderscore c = true → fr = -1) →
      (∀ n f, lookupFlag dims n = some f → lookupFlag dims2 n = some f) ∧
      (∀ p ∈ scanRuns rem, lookupFlag dims2 p.1 = some p.2 ∨ p ∈ scanRuns rem2)) ∧
    (∀ sig rem pos dims ixs nd dims2 ixs2 nd2 rem2 pos2,
      parseDimsSep sig fuel rem pos dims ixs nd = .ok (dims2, ixs2, nd2, rem2, pos2) →
      (∀ n f, lookupFlag dims n = some f → lookupFlag dims2 n = some f) ∧
      (∀ p ∈ scanRuns rem, lookupFlag dims2 p.1 = some p.2 ∨ p ∈ scanRuns rem2)) := by
  induction fuel with
  | zero =>
    refine ⟨?_, ?_, ?_⟩
    · intro sig rem pos dims ixs nd dims2 ixs2 nd2 rem2 pos2 h
      rw [parseDims.eq_def] at h
      exact absurd h (by simp)
    · intro sig rem pos dims ixs nd fr dims2 ixs2 nd2 rem2 pos2 h
      simp only [parseDimsEntry] at h
      exact absurd h (by simp)
    · intro sig rem pos dims ixs nd dims2 ixs2 nd2 rem2 pos2 h
      simp only [parseDimsSep] at h
      exact absurd h (by simp)
  | succ fuel ih =>
    obtain ⟨ihD, ihE, ihS⟩ := ih
    refine ⟨?_, ?_, ?_⟩
    · intro sig rem pos dims ixs nd dims2 ixs2 nd2 rem2 pos2 h
      cases rem with
      | nil =>
        simp only [parseDims] at h
        exact absurd h (by simp)
      | cons c r =>
        simp only [parseDims] at h
        by_cases hc : c = ')'
        · rw [if_pos hc] at h
          simp only [Except.ok.injEq, Prod.mk.injEq] at h
          obtain ⟨e1, e2, e3, e4, e5⟩ := h
          subst e1; subst e4
          refine ⟨fun n f hf => hf, ?_⟩
          intro p hp
          subst hc
          rw [scanRuns_cons_other r (by decide)] at hp
          exact Or.inr hp
        · rw [if_neg hc] at h
          by_cases hfr : (!isAlphaUnderscore c && decide (getSizeNum (c :: r) ≤ 0)) = true
          · rw [if_pos hfr] at h
            exact absurd h (by simp)
          · rw [if_neg hfr] at h
            refine ihE _ _ _ _ _ _ _ _ _ _ _ _ h ?_
            intro c2 hc2 hal
            rw [List.head?_cons] at hc2
            injection hc2 with hc3
            subst hc3
            rw [if_pos hal]
    · intro sig rem pos dims ixs nd fr dims2 ixs2 nd2 rem2 pos2 h hfr
      simp only [parseDimsEntry] at h
      split at h
      · rename_i ix e2 heq
        split at h
        · exact absurd h (by simp)
        · rename_i hq1
          split at h
          · exact absurd h (by simp)
          · rename_i hq2
            obtain ⟨extS, runsS⟩ := ihS _ _ _ _ _ _ _ _ _ _ _ h
            have hflag : ((rem.dropWhile isAlnumUnderscore).head? = some '?' : Bool)
                = e2.canIgnore := canIgnore_eq_of_checks hq1 hq2
            refine ⟨extS, ?_⟩
            intro p hp
            cases rem with
            | nil => exact absurd hp (by simp [scanRuns])
            | cons c r =>
              by_cases hal : isAlphaUnderscore c = true
              · rw [scanRuns_cons_alpha_decomp r hal] at hp
                rcases List.mem_cons.mp hp with hph | hpt
                · subst hph
                  have hfr2 : fr = -1 := hfr c rfl hal
                  rw [hfr2] at heq
                  have hl := lookupFlag_of_findDim heq
                  refine Or.inl ?_
                  rw [hflag]
                  exact extS _ _ hl
                · have := runsS p (by rw [scanRuns_afterName]; exact hpt)
                  exact this
              · have hpt : p ∈ scanRuns ((c :: r).dropWhile isAlnumUnderscore) := by
                  rw [scanRuns_dropWhile_alnum_eq (c :: r) ?_]
                  · exact hp
                  · intro c2 hc2
                    rw [List.head?_cons] at hc2
                    injection hc2 with hc3
                    subst hc3
                    exact Bool.of_not_eq_true hal
                exact runsS p (by rw [scanRuns_afterName]; exact hpt)
      · rename_i heq
        obtain ⟨extS, runsS⟩ := ihS _ _ _ _ _ _ _ _ _ _ _ h
        refine ⟨?_, ?_⟩
        · intro n f hf
          exact extS n f (lookupFlag_append hf _)
        · intro p hp
          cases rem with
          | nil => exact absurd hp (by simp [scanRuns])
          | cons c r =>
            by_cases hal : isAlphaUnderscore c = true
            · rw [scanRuns_cons_alpha_decomp r hal] at hp
              rcases List.mem_cons.mp hp with hph | hpt
              · subst hph
                have hfr2 : fr = -1 := hfr c rfl hal
                rw [hfr2] at heq
                have hl := lookupFlag_append_new heq
                  ⟨(c :: r).takeWhile isAlnumUnderscore, fr,
                    (((c :: r).dropWhile isAlnumUnderscore).head? = some '?' : Bool),
                    decide (fr < 0)⟩ rfl
                refine Or.inl ?_
                exact extS _ _ hl
              · exact runsS p (by rw [scanRuns_afterName]; exact hpt)
            · have hpt : p ∈ scanRuns ((c :: r).dropWhile isAlnumUnderscore) := by
                rw [scanRuns_dropWhile_alnum_eq (c :: r) ?_]
                · exact hp
                · intro c2 hc2
                  rw [List.head?_cons] at hc2
                  injection hc2 with hc3
                  subst hc3
                  exact Bool.of_not_eq_true hal
              exact runsS p (by rw [scanRuns_afterName]; exact hpt)
    · intro sig rem pos dims ixs nd dims2 ixs2 nd2 rem2 pos2 h
      simp only [parseDimsSep] at h
      split at h
      · exact absurd h (by simp)
      · rename_i c r2 heqd
        split at h
        · rename_i hc
          split at h
          · exact absurd h (by simp)
          · obtain ⟨extD, runsD⟩ := ihD _ _ _ _ _ _ _ _ _ _ _ h
            refine ⟨extD, ?_⟩
            intro p hp
            refine runsD p ?_
            rw [scanRuns_dropWhile_spaces r2]
            have hr : scanRuns rem = scanRuns r2 := by
              rw [← scanRuns_dropWhile_spaces rem, heqd, hc,
                scanRuns_cons_other r2 (by decide)]
            rw [← hr]
            exact hp
        · rename_i hc
          split at h
          · rename_i hc2
            simp only [Except.ok.injEq, Prod.mk.injEq] at h
            obtain ⟨e1, e2, e3, e4, e5⟩ := h
            subst e1; subst e4
            refine ⟨fun n f hf => hf, ?_⟩
            intro p hp
            refine Or.inr ?_
            have hr : scanRuns rem = scanRuns r2 := by
              rw [← scanRuns_dropWhile_spaces rem, heqd, hc2,
                scanRuns_cons_other r2 (by decide)]
            rw [← hr]
            exact hp
          · exact absurd h (by simp)

theorem parseTop_runs (fuel : Nat) :
    (∀ sig nin nargs rem pos curArg dims coreNumDims ixs dims2 cnd2 ixs2,
      parseTop sig nin nargs fuel rem pos curArg dims coreNumDims ixs
        = .ok (dims2, cnd2, ixs2) →
      (∀ n f, lookupFlag dims n = some f → lookupFlag dims2 n = some f) ∧
      (∀ p ∈ scanRuns rem, lookupFlag dims2 p.1 = some p.2)) ∧
    (∀ sig nin nargs rem pos curArg dims coreNumDims ixs dims2 cnd2 ixs2,
      parseTopArg sig nin nargs fuel rem pos curArg dims coreNumDims ixs
        = .ok (dims2, cnd2, ixs2) →
      (∀ n f, lookupFlag dims n = some f → lookupFlag dims2 n = some f) ∧
      (∀ p ∈ scanRuns rem, lookupFlag dims2 p.1 = some p.2)) := by
  induction fuel with
  | zero =>
    refine ⟨?_, ?_⟩
    · intro sig nin nargs rem pos curArg dims coreNumDims ixs dims2 cnd2 ixs2 h
      rw [parseTop.eq_def] at h
      exact absurd h (by simp)
    · intro sig nin nargs rem pos curArg dims coreNumDims ixs dims2 cnd2 ixs2 h
      rw [parseTopArg.eq_def] at h
      exact absurd h (by simp)
  | succ fuel ih =>
    obtain ⟨ihT, ihA⟩ := ih
    refine ⟨?_, ?_⟩
    · intro sig nin nargs rem pos curArg dims coreNumDims ixs dims2 cnd2 ixs2 h
      simp only [parseTop] at h
      split at h
      · split at h
        · exact absurd h (by simp)
        · simp only [Except.ok.injEq, Prod.mk.injEq] at h
          obtain ⟨e1, e2, e3⟩ := h
          subst e1
          exact ⟨fun n f hf => hf, fun p hp => absurd hp (by simp [scanRuns])⟩
      · rename_i c r
        split at h
        · split at h
          · rename_i hc
            split at h
            · exact absurd h (by simp)
            · rename_i c2 r2
              split at h
              · rename_i hc2
                obtain ⟨extA, runsA⟩ := ihA _ _ _ _ _ _ _ _ _ _ _ _ h
                refine ⟨extA, ?_⟩
                intro p hp
                refine runsA p ?_
                rw [scanRuns_dropWhile_spaces r2]
                subst hc; subst hc2
                rw [scanRuns_cons_other _ (by decide),
                  scanRuns_cons_other _ (by decide)] at hp
                exact hp
              · exact absurd h (by simp)
          · exact absurd h (by simp)
        · exact ihA _ _ _ _ _ _ _ _ _ _ _ _ h
    · intro sig nin nargs rem pos curArg dims coreNumDims ixs dims2 cnd2 ixs2 h
      cases rem with
      | nil =>
        simp only [parseTopArg] at h
        exact absurd h (by simp)
      | cons c r2 =>
        simp only [parseTopArg] at h
        by_cases hc : c = '('
        · subst hc
          rw [if_pos rfl] at h
          rcases heqD : parseDims sig (2 * (r2.dropWhile isSigSpace).length + 2)
              (r2.dropWhile isSigSpace)
              (pos + 1 + (r2.takeWhile isSigSpace).length) dims ixs 0 with
            e | ⟨dims2m, ixs2m, nd2m, rem3, pos3⟩
          · rw [heqD] at h
            exact absurd h (by simp)
          · rw [heqD] at h
            dsimp only at h
            obtain ⟨extD, runsD⟩ :=
              (parseDims_runs _).1 _ _ _ _ _ _ _ _ _ _ _ heqD
            have hrem : scanRuns ('(' :: r2)
                = scanRuns (r2.dropWhile isSigSpace) := by
              rw [scanRuns_cons_other _ (by decide), scanRuns_dropWhile_spaces r2]
            by_cases hcond : curArg + 1 ≠ nin ∧ curArg + 1 ≠ nargs
            · rw [if_pos hcond] at h
              rcases heq3 : rem3.dropWhile isSigSpace with _ | ⟨c3, r5⟩
              · rw [heq3] at h
                exact absurd h (by simp)
              · rw [heq3] at h
                dsimp only at h
                by_cases hc3 : c3 = ','
                · rw [if_pos hc3] at h
                  obtain ⟨extT, runsT⟩ := ihT _ _ _ _ _ _ _ _ _ _ _ _ h
                  refine ⟨fun n f hf => extT n f (extD n f hf), ?_⟩
                  intro p hp
                  rw [hrem] at hp
                  rcases runsD p hp with hl | hr
                  · exact extT _ _ hl
                  · refine runsT p ?_
                    rw [scanRuns_dropWhile_spaces r5]
                    rw [← scanRuns_dropWhile_spaces rem3, heq3, hc3,
                      scanRuns_cons_other r5 (by decide)] at hr
                    exact hr
                · rw [if_neg hc3] at h
                  exact absurd h (by simp)
            · rw [if_neg hcond] at h
              obtain ⟨extT, runsT⟩ := ihT _ _ _ _ _ _ _ _ _ _ _ _ h
              refine ⟨fun n f hf => extT n f (extD n f hf), ?_⟩
              intro p hp
              rw [hrem] at hp
              rcases runsD p hp with hl | hr
              · exact extT _ _ hl
              · refine runsT p ?_
                rw [scanRuns_dropWhile_spaces rem3]
                exact hr
        · rw [if_neg hc] at h
          exact absurd h (by simp)

theorem parseSignature_ok_runs {nin nout : Nat} {sig : List Char} {info : SigInfo}
    (h : parseSignature nin nout sig = .ok info) :
    ∀ p ∈ scanRuns sig, lookupFlag info.dims p.1 = some p.2 := by
  unfold parseSignature at h
  split at h
  · exact absurd h (by simp)
  · rename_i dims cnd ixs heq
    injection h with h2
    subst h2
    obtain ⟨extT, runsT⟩ := (parseTop_runs _).1 _ _ _ _ _ _ _ _ _ _ _ _ heq
    intro p hp
    refine runsT p ?_
    rw [scanRuns_dropWhile_spaces sig]
    exact hp

/-- Claim C9: a core-dimension name must carry the same ignorable marker
at every occurrence: for every signature string in which a name appears
once with the question-mark marker and once without it, _parse_signature
fails with a parse error, and every parse error reports the offending
character offset together with the full signature text (the error value
carries the position, and its signature field is the complete input). -/
theorem signature_question_mark_consistency (nin nout : Nat) (sig : List Char)
    (n : List Char) (h1 : (n, true) ∈ scanRuns sig)
    (h2 : (n, false) ∈ scanRuns sig) :
    (∃ e, parseSignature nin nout sig = .error e ∧ e.sig = sig) ∧
    (∀ (s : List Char) (e : ParseError),
      parseSignature nin nout s = .error e → e.sig = s) := by
  have herr : ∀ (s : List Char) (e : ParseError),
      parseSignature nin nout s = .error e → e.sig = s :=
    fun s e he => parseSignature_error_sig he
  refine ⟨?_, herr⟩
  rcases hres : parseSignature nin nout sig with e | info
  · exact ⟨e, rfl, herr sig e hres⟩
  · exfalso
    have hc := parseSignature_ok_runs hres
    have ht := hc (n, true) h1
    have hf := hc (n, false) h2
    exact absurd (ht.symm.trans hf) (by simp)

/-- Witness for C9 at the concrete signature (i?),(i) to (), in which the
name i appears once with and once without the question mark. -/
theorem signature_question_mark_consistency_witness :
    ((['i'], true) ∈ scanRuns "(i?),(i)->()".toList ∧
     (['i'], false) ∈ scanRuns "(i?),(i)->()".toList) ∧
    (∃ e, parseSignature 2 1 "(i?),(i)->()".toList = .error e ∧
      e.sig = "(i?),(i)->()".toList) :=
  ⟨⟨by decide, by decide⟩,
   (signature_question_mark_consistency 2 1 "(i?),(i)->()".toList ['i']
     (by decide) (by decide)).1⟩

end UFuncModel
